import Mathlib

/-!
Verification development for the biplaneblade cross-section geometry engine.

We shallowly embed the core data model and operations of the repository:

* `scripts/structure.py` — structural part catalog and the `exists()`
  predicate (NaN-valued scalar dimensions are modelled as `Option ℚ`,
  with `none` standing for NaN; addition propagates NaN, which is the
  only float operation these predicates depend on);
* `lib/station.py` — `MonoplaneStation.cut_out_part` (labelling of the
  polygons produced by intersecting the eroded profile with a bounding
  box) and `MonoplaneStation.get_interior_loop` (area-threshold filter
  and centroid-x ordering of interior rings);
* `lib/layer.py` — `Layer.find_corners`, `Layer.get_edges`,
  `Layer.get_edges2`, `Layer.get_and_save_edges`,
  `Layer.write_alt_layer_edges2` and `Layer.move`.

Geometry produced by the external polygon kernel (shapely) is represented
by its observable data: polygons by their exterior coordinate rings
(lists of rational points, closing duplicate included), interior rings by
their kernel-computed area and centroid abscissa, and line-string
centroids by an abstract function parameter.
-/

namespace Biplaneblade

/-! ### Scalar dimensions with NaN (`scripts/structure.py`)

A scalar design dimension is either a real number (modelled as `ℚ`) or
NaN (`none`).  Python float addition propagates NaN. -/

/-- A float-valued scalar dimension: `none` models NaN. -/
abbrev FloatNaN : Type := Option ℚ

/-- Model of `math.isnan`. -/
def isnanF (v : FloatNaN) : Bool :=
  match v with
  | none => true
  | some _ => false

/-- Model of Python float addition: NaN propagates through `+`. -/
def addF (a b : FloatNaN) : FloatNaN :=
  match a, b with
  | some x, some y => some (x + y)
  | _, _ => none

/-- Model of `Part.exists` (structure.py lines 21-26):
`False` when `isnan(base) and isnan(height)`, else `True`. -/
def partExists (base height : FloatNaN) : Bool :=
  if isnanF base && isnanF height then false else true

/-- The scalar state of a `TE_Reinforcement` (structure.py lines 54-59):
the constructor receives `base`, `height_uniax`, `height_foam`. -/
structure TEReinf where
  base : FloatNaN
  height_uniax : FloatNaN
  height_foam : FloatNaN

/-- `TE_Reinforcement.__init__` passes `height = height_uniax + height_foam`
to `Part.__init__` (float addition, so NaN propagates). -/
def TEReinf.height (t : TEReinf) : FloatNaN :=
  addF t.height_uniax t.height_foam

/-- `exists()` as inherited by `TE_Reinforcement` from `Part`: it tests
`base` and the stored `height = height_uniax + height_foam`. -/
def TEReinf.existsAt (t : TEReinf) : Bool :=
  partExists t.base t.height

/-! ### `MonoplaneStation.cut_out_part` (station.py lines 741-775)

`airfoil_cutout.intersection(bounding_box)` returns either a shapely
`Polygon` (no `.geoms` attribute) or a `MultiPolygon` (a list of
polygons in kernel enumeration order).  The code branches on exactly
that distinction, so we take the intersection result as input. -/

/-- Result of a shapely intersection as observed by `cut_out_part`:
either a single polygon or a multi-polygon with its kernel-ordered
member list. -/
inductive ShapelyGeom (α : Type) where
  | single (p : α)
  | multi (ps : List α)

/-- The fixed message of the `NotImplementedError` raised by
`cut_out_part` (station.py line 769). -/
def cutOutPartErrMsg : String :=
  "After cutting out parts, more than 2 polygons were found."

/-- Model of `MonoplaneStation.cut_out_part`, taking the intersection
result `p4`.  A raised exception is modelled as `Except.error` carrying
the exception message. -/
def cutOutPart {α : Type} (p4 : ShapelyGeom α) :
    Except String (List (String × α)) :=
  match p4 with
  | .multi ps =>
      if h : ps.length = 2 then
        Except.ok [("lower part", ps.get ⟨0, by omega⟩),
                   ("upper part", ps.get ⟨1, by omega⟩)]
      else
        Except.error cutOutPartErrMsg
  | .single p => Except.ok [("single part", p)]

/-! Substring test used to formalise the spec's requirement that an
error message "identify the part name and station". -/

/-- Does the character list `hay` start with `pat`? -/
def charsLeadWith : List Char → List Char → Bool
  | _, [] => true
  | [], _ :: _ => false
  | a :: as, b :: bs => a = b && charsLeadWith as bs

/-- Does the character list `hay` contain `pat` as a contiguous run? -/
def charsContain (hay pat : List Char) : Bool :=
  match hay with
  | [] => charsLeadWith [] pat
  | _ :: t => charsLeadWith hay pat || charsContain t pat

/-- Does string `hay` contain string `pat` as a substring? -/
def strContains (hay pat : String) : Bool :=
  charsContain hay.data pat.data

/-- Modelled from the spec: "must identify the part name and station in
the message" — the message mentions the offending part's name and the
station number. -/
def identifiesPartAndStation (msg partName : String) (stationNum : Nat) : Bool :=
  strContains msg partName && strContains msg (toString stationNum)

/-! ### `MonoplaneStation.get_interior_loop` (station.py lines 977-1009)

An interior ring of the merged all-parts polygon is observed through two
kernel-computed quantities: `Polygon(interior).area` and
`interior.centroid.x`.  A `ringId` distinguishes rings. -/

/-- An interior ring with its kernel-computed area and centroid
abscissa. -/
structure Ring where
  area : ℚ
  centroidX : ℚ
  ringId : Nat
deriving DecidableEq, Repr

/-- Default `area_threshold=10e-06` of `get_interior_loop`. -/
def areaThresholdDefault : ℚ := 10 / 1000000

/-- Python's negative-index wrap-around. -/
def pyWrap (n : Nat) (i : Int) : Int :=
  if i < 0 then i + n else i

/-- Python indexing `l[i]` with negative-index wrap-around; `none`
models an `IndexError`. -/
def pyIndex {α : Type} (l : List α) (i : Int) : Option α :=
  if h : 0 ≤ pyWrap l.length i ∧ pyWrap l.length i < l.length then
    some (l.get ⟨(pyWrap l.length i).toNat, by omega⟩)
  else
    none

/-- The surviving ("good") interior loops: area strictly above the
threshold, in kernel enumeration order. -/
def goodLoops (interiors : List Ring) (areaThreshold : ℚ) : List Ring :=
  interiors.filter (fun r => areaThreshold < r.area)

/-- Key order used by `good_loops.sort(key=attrgetter('centroid.x'))`. -/
def ringLe (a b : Ring) : Prop := a.centroidX ≤ b.centroidX

instance : DecidableRel ringLe := fun a b =>
  inferInstanceAs (Decidable (a.centroidX ≤ b.centroidX))

/-- Model of `MonoplaneStation.get_interior_loop`: filter interiors by
area, sort by centroid x when more than one survives (Python list sort
is stable; `List.insertionSort` is the matching stable sort), and index
with `internal_surface_num - 1`. -/
def getInteriorLoop (interiors : List Ring) (internalSurfaceNum : Nat)
    (areaThreshold : ℚ) : Option Ring :=
  let good := goodLoops interiors areaThreshold
  let sorted := if 1 < good.length then good.insertionSort ringLe else good
  pyIndex sorted ((internalSurfaceNum : Int) - 1)

/-! ### `Layer.find_corners` (layer.py lines 358-373)

The layer polygon is observed through its exterior coordinate ring
(closing duplicate included); the kernel's point-to-boundary distance
query is an abstract function parameter. -/

/-- A 2-D point with rational coordinates. -/
abbrev Pt : Type := ℚ × ℚ

/-- Default `tol=1.0e-08` of `find_corners`. -/
def cornerTolDefault : ℚ := 1 / 100000000

/-- Model of `Layer.find_corners`: walk `polygon.exterior.coords[:-1]`
in ring order, appending each point whose kernel distance to the
bounding polygon boundary is `< tol`. -/
def findCorners (ext : List Pt) (distToBoundary : Pt → ℚ) (tol : ℚ) :
    List Pt :=
  ext.dropLast.foldl
    (fun acc c => if distToBoundary c < tol then acc ++ [c] else acc) []

/-! ### `Layer.get_edges2` (layer.py lines 177-218) -/

/-- First index of a list element satisfying `p`; `none` models the
`IndexError` of `np.where(...)[0][0]` on no match. -/
def firstIdxWhere {α : Type} (p : α → Bool) : List α → Option Nat
  | [] => none
  | x :: xs =>
      if p x then some 0
      else
        match firstIdxWhere p xs with
        | some j => some (j + 1)
        | none => none

/-- Default `tol=1e-08` of `get_edges2`. -/
def getEdges2TolDefault : ℚ := 1 / 100000000

/-- The `duplicate` check of `get_edges2`: an edge of exactly two points
whose coordinatewise differences are both `< tol` in absolute value. -/
def duplicateEdge (tol : ℚ) (e : List Pt) : Bool :=
  match e with
  | [p, q] => decide (|p.1 - q.1| < tol ∧ |p.2 - q.2| < tol)
  | _ => false

/-- Python slice `a[i:j+1]`. -/
def sliceIncl (a : List Pt) (i j : Nat) : List Pt :=
  (a.drop i).take (j + 1 - i)

/-- The inner edges `a[match[m]:match[m+1]+1]` between consecutive
sorted corner indices. -/
def consecSlices (a : List Pt) : List Nat → List (List Pt)
  | i :: j :: rest => sliceIncl a i j :: consecSlices a (j :: rest)
  | _ => []

/-- The last edge of `get_edges2`: wraps through the ring seam when
`match[0] > 0` (`vstack((a[match[-1]:-1], a[:match[0]+1]))`), else
`a[match[-1]:]`. -/
def lastEdge (a : List Pt) (m0 mLast : Nat) : List Pt :=
  if 0 < m0 then (a.drop mLast).dropLast ++ a.take (m0 + 1)
  else a.drop mLast

/-- All candidate edges of `get_edges2` before the duplicate filter:
one per corner index, in traversal order.  `none` models the
`IndexError` raised on an empty corner list (`a[:match[0]]`). -/
def edgeCandidates (a : List Pt) (m : List Nat) : Option (List (List Pt)) :=
  match m with
  | [] => none
  | m0 :: rest =>
      some (consecSlices a (m0 :: rest) ++
        [lastEdge a m0 ((m0 :: rest).getLastD 0)])

/-- Locate each corner in the exterior ring by exact coordinate
equality (`np.where((a == c).all(axis=1))[0][0]`), corner by corner;
`none` models the `IndexError` on a corner absent from the ring. -/
def lookupCorners (a : List Pt) : List Pt → Option (List Nat)
  | [] => some []
  | c :: cs => do
      let i ← firstIdxWhere (fun pt => pt = c) a
      let rest ← lookupCorners a cs
      return i :: rest

/-- Model of `Layer.get_edges2`: locate each saved corner in the
exterior ring by exact coordinate equality, sort the indices, split the
ring at them, and drop `duplicate` edges. -/
def getEdges2 (a : List Pt) (corners : List Pt) (tol : ℚ) :
    Option (List (List Pt)) := do
  let idxs ← lookupCorners a corners
  let m := idxs.insertionSort (· ≤ ·)
  let cands ← edgeCandidates a m
  return cands.filter (fun e => !duplicateEdge tol e)

/-! ### `Layer.write_alt_layer_edges2` (layer.py lines 393-425) -/

/-- Default `tol=1e-07` of `write_alt_layer_edges2`. -/
def altEdgeTolDefault : ℚ := 1 / 10000000

/-- The bad-edge scan of `write_alt_layer_edges2`: the LAST index of a
two-point edge whose SIGNED coordinate differences `edge[0]-edge[1]`
are both `< tol` (note: no absolute value in the source). -/
def badEdgeScan (tol : ℚ) (edges : List (List Pt)) : Option Nat :=
  edges.enum.foldl
    (fun acc ie =>
      match ie.2 with
      | [p, q] => if p.1 - q.1 < tol ∧ p.2 - q.2 < tol then some ie.1 else acc
      | _ => acc)
    none

/-- The small-edge cleanup of `write_alt_layer_edges2`: when more than
4 edges remain, pop the edge found by `badEdgeScan` (at most one). -/
def writeAltCleanup (tol : ℚ) (edges : List (List Pt)) : List (List Pt) :=
  if 4 < edges.length then
    match badEdgeScan tol edges with
    | some i => edges.eraseIdx i
    | none => edges
  else edges

/-! ### `Layer.get_edges` and `Layer.get_and_save_edges`
(layer.py lines 74-175 and 220-356)

The corner-matching rule of `get_edges` depends on the parent part's
class: every family matches exterior vertices whose x-coordinate equals
part-derived abscissae, except `RootBuildup` and `ExternalSurface`,
which match `x == 0.0` together with `y == 0.0`. -/

/-- The part families dispatched on in `layer.py` (via
`parent_part.__class__.__name__`). -/
inductive Family where
  | rootBuildup
  | lePanel
  | sparCap
  | aftPanel
  | teReinf
  | shearWeb
  | extSurface
deriving DecidableEq, Repr

/-- The x-coordinate match values of a family: the part-derived
abscissae `xT` (e.g. `left`/`right`) for most families, `0.0` for
root buildup and external surface. -/
def famXTargets (fam : Family) (xT : List ℚ) : List ℚ :=
  match fam with
  | .rootBuildup => [0]
  | .extSurface => [0]
  | _ => xT

/-- The y-coordinate match values of a family: root buildup and
external surface additionally match `y == 0.0`; no other family matches
on y. -/
def famYTargets (fam : Family) : List ℚ :=
  match fam with
  | .rootBuildup => [0]
  | .extSurface => [0]
  | _ => []

/-- Indices of exterior-ring points satisfying `p`, ascending
(`np.nonzero`). -/
def idxMatches (p : Pt → Bool) (a : List Pt) : List Nat :=
  (List.range a.length).filter
    (fun i => match a[i]? with
      | some pt => p pt
      | none => false)

/-- The sorted corner-index array `match` of `get_edges`: x-matches and
y-matches appended, then sorted ascending (`match.sort()`). -/
def matchIndices (fam : Family) (xT : List ℚ) (a : List Pt) : List Nat :=
  (((famXTargets fam xT).flatMap
      (fun v => idxMatches (fun pt => pt.1 = v) a)) ++
   ((famYTargets fam).flatMap
      (fun v => idxMatches (fun pt => pt.2 = v) a))).insertionSort (· ≤ ·)

/-- The four edges returned by `get_edges`. -/
structure Quad (α : Type) where
  e1 : α
  e2 : α
  e3 : α
  e4 : α
deriving DecidableEq, Repr

/-- `edges[i]` for the tuple returned by `get_edges`. -/
def Quad.nth {α : Type} (q : Quad α) (i : Nat) : α :=
  match i with
  | 0 => q.e1
  | 1 => q.e2
  | 2 => q.e3
  | _ => q.e4

/-- Map a function over the four edges. -/
def Quad.map {α β : Type} (f : α → β) (q : Quad α) : Quad β :=
  ⟨f q.e1, f q.e2, f q.e3, f q.e4⟩

/-- Model of `Layer.get_edges`: split the exterior ring at the first
four (or five) sorted match indices.  `none` models the uncaught
`IndexError` when fewer than four indices match; with exactly four, the
fourth edge wraps through the ring seam
(`append(a[match[3]:], a[1:match[0]+1])`). -/
def getEdgesV1 (fam : Family) (xT : List ℚ) (a : List Pt) :
    Option (Quad (List Pt)) :=
  match matchIndices fam xT a with
  | m0 :: m1 :: m2 :: m3 :: rest =>
      some { e1 := sliceIncl a m0 m1
             e2 := sliceIncl a m1 m2
             e3 := sliceIncl a m2 m3
             e4 := match rest with
               | m4 :: _ => sliceIncl a m3 m4
               | [] => a.drop m3 ++ (a.drop 1).take m0 }
  | _ => none

/-- The classified left/top/right/bottom edges. -/
structure LTRB (α : Type) where
  left : α
  top : α
  right : α
  bottom : α
deriving DecidableEq, Repr

/-- Map a function over the four classified edges. -/
def LTRB.map {α β : Type} (f : α → β) (r : LTRB α) : LTRB β :=
  ⟨f r.left, f r.top, f r.right, f r.bottom⟩

/-- First index of value `v` in `xs` (`np.nonzero(arr == v)[0][0]`);
`none` models the `IndexError` on no match. -/
def firstIdxEq (v : ℚ) (xs : List ℚ) : Option Nat :=
  firstIdxWhere (fun x => x = v) xs

/-- `np.max` of the 4-element centroid coordinate array. -/
def max4 (a b c d : ℚ) : ℚ := max (max (max a b) c) d

/-- `np.min` of the 4-element centroid coordinate array. -/
def min4 (a b c d : ℚ) : ℚ := min (min (min a b) c) d

/-- Drop the first occurrence of `v` from the list. -/
def removeFirst (v : Nat) : List Nat → List Nat
  | [] => []
  | x :: xs => if x = v then xs else x :: removeFirst v xs

/-- Python `list.remove(v)`: drop the first occurrence of `v`; `none`
models the `ValueError` raised when `v` is absent. -/
def pyRemove (l : List Nat) (v : Nat) : Option (List Nat) :=
  if v ∈ l then some (removeFirst v l) else none

/-- The generic quadrilateral role rule shared verbatim by the
`SparCap`, `AftPanel`, `ShearWeb` and alternate `TE_Reinforcement`
branches of `get_and_save_edges`: first-minimum-x centroid is `left`,
first-maximum-x is `right`, and of the two remaining edge indices (in
residual order) the one with greater y centroid is `top`, the other
`bottom`. -/
def classifyGeneric (cx0 cx1 cx2 cx3 cy0 cy1 cy2 cy3 : ℚ) :
    Option (LTRB Nat) := do
  let cxs := [cx0, cx1, cx2, cx3]
  let cys := [cy0, cy1, cy2, cy3]
  let xMinInd ← firstIdxEq (min4 cx0 cx1 cx2 cx3) cxs
  let xMaxInd ← firstIdxEq (max4 cx0 cx1 cx2 cx3) cxs
  let l1 ← pyRemove [0, 1, 2, 3] xMinInd
  let l2 ← pyRemove l1 xMaxInd
  match l2 with
  | [p, q] => do
      let cyp ← cys[p]?
      let cyq ← cys[q]?
      if cyq < cyp then
        return { left := xMinInd, top := p, right := xMaxInd, bottom := q }
      else
        return { left := xMinInd, top := q, right := xMaxInd, bottom := p }
  | _ => none

/-- The `LE_Panel` branch: `left` is the first-minimum-x centroid,
`top` the first-maximum-y, `bottom` the first-minimum-y, `right` the
remaining index. -/
def classifyLEPanel (cx0 cx1 cx2 cx3 cy0 cy1 cy2 cy3 : ℚ) :
    Option (LTRB Nat) := do
  let cxs := [cx0, cx1, cx2, cx3]
  let cys := [cy0, cy1, cy2, cy3]
  let xMinInd ← firstIdxEq (min4 cx0 cx1 cx2 cx3) cxs
  let yMaxInd ← firstIdxEq (max4 cy0 cy1 cy2 cy3) cys
  let yMinInd ← firstIdxEq (min4 cy0 cy1 cy2 cy3) cys
  let l1 ← pyRemove [0, 1, 2, 3] xMinInd
  let l2 ← pyRemove l1 yMaxInd
  let l3 ← pyRemove l2 yMinInd
  match l3 with
  | [r] => return { left := xMinInd, top := yMaxInd, right := r,
                    bottom := yMinInd }
  | _ => none

/-- The `TE_Reinforcement` branch for the `uniax`/`foam` layers:
`right` is the first-maximum-x centroid, `top` the first-maximum-y,
`bottom` the first-minimum-y, `left` the remaining index. -/
def classifyTEMain (cx0 cx1 cx2 cx3 cy0 cy1 cy2 cy3 : ℚ) :
    Option (LTRB Nat) := do
  let cxs := [cx0, cx1, cx2, cx3]
  let cys := [cy0, cy1, cy2, cy3]
  let xMaxInd ← firstIdxEq (max4 cx0 cx1 cx2 cx3) cxs
  let yMaxInd ← firstIdxEq (max4 cy0 cy1 cy2 cy3) cys
  let yMinInd ← firstIdxEq (min4 cy0 cy1 cy2 cy3) cys
  let l1 ← pyRemove [0, 1, 2, 3] xMaxInd
  let l2 ← pyRemove l1 yMaxInd
  let l3 ← pyRemove l2 yMinInd
  match l3 with
  | [lft] => return { left := lft, top := yMaxInd, right := xMaxInd,
                      bottom := yMinInd }
  | _ => none

/-- The name-keyed `left`/`right` selection of the `RootBuildup`
branch: `ind_x` (the `x == 0` centroid edge) and `ind_y` (the `y == 0`
centroid edge) become `right`/`left` or `left`/`right` depending on the
quadrant named by the layer.  A name outside the four `triax, ...`
cases leaves `left`/`right` unset in the source, modelled as `none`. -/
def rootLR (name : String) (indX indY : Nat) : Option (Nat × Nat) :=
  if name = "triax, lower left" then some (indY, indX)
  else if name = "triax, lower right" then some (indX, indY)
  else if name = "triax, upper right" then some (indX, indY)
  else if name = "triax, upper left" then some (indY, indX)
  else none

/-- The `RootBuildup` branch: the edge whose centroid has `x == 0.0`
and the edge whose centroid has `y == 0.0` become `left`/`right`
according to the layer name; the remaining two are `top`/`bottom` by
greater y centroid. -/
def classifyRootBuildup (name : String)
    (cx0 cx1 cx2 cx3 cy0 cy1 cy2 cy3 : ℚ) : Option (LTRB Nat) := do
  let cxs := [cx0, cx1, cx2, cx3]
  let cys := [cy0, cy1, cy2, cy3]
  let indX ← firstIdxEq 0 cxs
  let indY ← firstIdxEq 0 cys
  let l1 ← pyRemove [0, 1, 2, 3] indX
  let l2 ← pyRemove l1 indY
  let lr ← rootLR name indX indY
  match l2 with
  | [p, q] => do
      let cyp ← cys[p]?
      let cyq ← cys[q]?
      if cyq < cyp then
        return { left := lr.1, top := p, right := lr.2, bottom := q }
      else
        return { left := lr.1, top := q, right := lr.2, bottom := p }
  | _ => none

/-- The role classification of `get_and_save_edges` (quadrilateral
path), dispatched on the parent part family exactly as the `if/elif`
chain of layer.py lines 265-356; `ExternalSurface` has no branch there,
so no roles are assigned. -/
def classifyQuad (fam : Family) (name : String)
    (cx0 cx1 cx2 cx3 cy0 cy1 cy2 cy3 : ℚ) : Option (LTRB Nat) :=
  match fam with
  | .rootBuildup => classifyRootBuildup name cx0 cx1 cx2 cx3 cy0 cy1 cy2 cy3
  | .lePanel => classifyLEPanel cx0 cx1 cx2 cx3 cy0 cy1 cy2 cy3
  | .sparCap => classifyGeneric cx0 cx1 cx2 cx3 cy0 cy1 cy2 cy3
  | .aftPanel => classifyGeneric cx0 cx1 cx2 cx3 cy0 cy1 cy2 cy3
  | .shearWeb => classifyGeneric cx0 cx1 cx2 cx3 cy0 cy1 cy2 cy3
  | .teReinf =>
      if name = "uniax" || name = "foam" then
        classifyTEMain cx0 cx1 cx2 cx3 cy0 cy1 cy2 cy3
      else
        classifyGeneric cx0 cx1 cx2 cx3 cy0 cy1 cy2 cy3
  | .extSurface => none

/-- Model of `Layer.get_and_save_edges` on a quadrilateral layer: split
the ring with `get_edges`, take each edge's kernel line-string centroid
(`asLineString(edge).centroid`, passed in as the abstract function
`centroid`), classify roles, and save the edge arrays. -/
def getAndSaveEdges (fam : Family) (name : String)
    (centroid : List Pt → Pt) (xT : List ℚ) (a : List Pt) :
    Option (LTRB (List Pt)) := do
  let q ← getEdgesV1 fam xT a
  let c1 := centroid q.e1
  let c2 := centroid q.e2
  let c3 := centroid q.e3
  let c4 := centroid q.e4
  let r ← classifyQuad fam name c1.1 c2.1 c3.1 c4.1 c1.2 c2.2 c3.2 c4.2
  return LTRB.map q.nth r

/-! ### `Layer.__init__` state and `Layer.move`
(layer.py lines 39-53 and 575-590) -/

/-- The attributes of a `Layer` touched by `move` (the material is
observed only through its identity here). -/
structure LayerState where
  name : String
  material : String
  mass : ℚ
  faceColor : String
  edgeColor : String
  polygonExt : List Pt
  corners : List Pt
  edges : List (List Pt)
  ltrb : Option (LTRB (List Pt))

/-- `shapely.affinity.translate(·, yoff=off)` on one point. -/
def translatePt (off : ℚ) (p : Pt) : Pt := (p.1, p.2 + off)

/-- Model of `Layer.move`: translate the polygon and the corners
vertically; for a regular layer re-derive the classified edges from the
translated polygon via `get_and_save_edges`, for an alt layer shift the
stored edges' y-coordinates in place. -/
def moveLayer (fam : Family) (centroid : List Pt → Pt) (xT : List ℚ)
    (s : LayerState) (x3Offset : ℚ) (altLayer : Bool) : LayerState :=
  let poly := s.polygonExt.map (translatePt x3Offset)
  let cors := s.corners.map (translatePt x3Offset)
  if altLayer then
    { s with polygonExt := poly, corners := cors,
             edges := s.edges.map (fun e => e.map (translatePt x3Offset)) }
  else
    { s with polygonExt := poly, corners := cors,
             ltrb := getAndSaveEdges fam s.name centroid xT poly }

/-! ### Concrete kernel instances and sample geometry

Used to instantiate the abstract kernel parameters (centroids,
distances) in witnesses and counterexamples. -/

/-- A concrete, translation-equivariant centroid: the arithmetic mean
of the point sequence (an admissible kernel stand-in for nonempty
edges). -/
def centroidAvg (e : List Pt) : Pt :=
  ((e.map Prod.fst).sum / (e.length : ℚ), (e.map Prod.snd).sum / (e.length : ℚ))

/-- Component access into the 4-element centroid coordinate array
(`centroids[m].x` for `m < 4`). -/
def coordAt (c0 c1 c2 c3 : ℚ) : Nat → ℚ
  | 0 => c0
  | 1 => c1
  | 2 => c2
  | _ => c3

/-- Exterior ring of a sample root-buildup quarter-annulus layer
(`triax, upper left`): corners sit on the `x = 0` and `y = 0` axes. -/
def rbRing : List Pt :=
  [(0, 2), (-3/2, 3/2), (-2, 0), (-1, 0), (-7/10, 7/10), (0, 1), (0, 2)]

/-- The sample root-buildup layer as a `LayerState`. -/
def rbLayer : LayerState :=
  { name := "triax, upper left", material := "TRIAX", mass := 1,
    faceColor := "#BE925A", edgeColor := "#000000",
    polygonExt := rbRing, corners := [], edges := [], ltrb := none }

/-- Exterior ring of a sample spar-cap-like layer spanning
`x ∈ [-1, 1]`. -/
def scRing : List Pt :=
  [(-1, 1), (0, 11/10), (1, 1), (1, 2), (0, 21/10), (-1, 2), (-1, 1)]

/-- The sample spar-cap layer as a `LayerState`. -/
def scLayer : LayerState :=
  { name := "lower spar cap", material := "UNIAX", mass := 1,
    faceColor := "#00ACEF", edgeColor := "#000000",
    polygonExt := scRing, corners := [], edges := [], ltrb := none }

/-- A pentagonal exterior ring with five corners: an edge/corner count
outside `{3, 4}`. -/
def pentRing : List Pt :=
  [(0, 0), (2, 0), (3, 2), (1, 4), (-1, 2), (0, 0)]

/-- The five corners of `pentRing`. -/
def pentCorners : List Pt :=
  [(0, 0), (2, 0), (3, 2), (1, 4), (-1, 2)]

/-- Five alt-layer edges of which the third is a two-point edge whose
endpoints differ by `1` in both coordinates (signed differences `-1`,
far below any tolerance). -/
def altEdgesEx : List (List Pt) :=
  [[(0, 0), (1, 0), (2, 0)],
   [(2, 0), (2, 1), (2, 2)],
   [(0, 0), (1, 1)],
   [(2, 2), (1, 2), (0, 2)],
   [(0, 2), (0, 1), (0, 0)]]

/-- Strict centroid-x order on rings. -/
def ringLt (a b : Ring) : Prop := a.centroidX < b.centroidX

instance : DecidableRel ringLt := fun a b =>
  inferInstanceAs (Decidable (a.centroidX < b.centroidX))

instance : IsTotal Ring ringLe :=
  ⟨fun a b => le_total a.centroidX b.centroidX⟩

instance : IsTrans Ring ringLe :=
  ⟨fun _ _ _ h1 h2 => le_trans h1 h2⟩

instance : IsTrans Ring ringLt :=
  ⟨fun _ _ _ h1 h2 => lt_trans h1 h2⟩

instance : IsAntisymm Ring ringLt :=
  ⟨fun _ _ h1 h2 => (lt_asymm h1 h2).elim⟩

/-! ## Theorems -/

/-- C2 (counterexample): for a `TE_Reinforcement` with `base = NaN`,
`height_uniax = 1.0`, `height_foam = NaN` — only one defining dimension
a real number — `exists()` returns `False`, because the constructor
stores `height = height_uniax + height_foam = NaN`; the claim asserts
it returns `True`. -/
theorem claim_C2_counterexample :
    ¬ (TEReinf.existsAt
        { base := none, height_uniax := some 1, height_foam := none } = true) := by
  decide

/-- C2 (amended): for a plain `Part`, `exists()` is `True` iff `base`
or `height` is non-NaN.  For a `TE_Reinforcement` the stored height is
the float sum `height_uniax + height_foam`, through which NaN
propagates, so `exists()` is `True` iff `base` is non-NaN or both
`height_uniax` and `height_foam` are non-NaN; in particular a
`TE_Reinforcement` whose only real dimension is `height_uniax` does not
exist. -/
theorem claim_C2 :
    (∀ base height : FloatNaN,
        partExists base height = true ↔ (base ≠ none ∨ height ≠ none)) ∧
    (∀ t : TEReinf,
        t.existsAt = true ↔
          (t.base ≠ none ∨ (t.height_uniax ≠ none ∧ t.height_foam ≠ none))) := by
  constructor
  · intro b h
    rcases b with _ | x <;> rcases h with _ | y <;>
      simp [partExists, isnanF]
  · intro t
    obtain ⟨b, hu, hf⟩ := t
    rcases b with _ | x <;> rcases hu with _ | y <;> rcases hf with _ | z <;>
      simp [TEReinf.existsAt, TEReinf.height, partExists, isnanF, addF]

/-- C1 (counterexample): on an intersection producing three polygons
(say for the spar cap of station 7), `cut_out_part` raises an error
whose message is the fixed string, which mentions neither the part name
nor the station number — the claim requires the message to identify
both. -/
theorem claim_C1_counterexample :
    cutOutPart (α := Nat) (.multi [1, 2, 3]) = Except.error cutOutPartErrMsg ∧
    identifiesPartAndStation cutOutPartErrMsg "spar cap" 7 = false := by
  exact ⟨rfl, by decide⟩

/-- C1 (amended): a two-polygon intersection is labelled
`lower part`/`upper part` in kernel enumeration order; a single polygon
is labelled `single part`; any other member count of a multi-polygon
raises `NotImplementedError` with the fixed message
"After cutting out parts, more than 2 polygons were found.", which does
not identify the offending part name or station. -/
theorem claim_C1 :
    ∀ (α : Type) (x y : α),
      cutOutPart (ShapelyGeom.multi [x, y]) =
        Except.ok [("lower part", x), ("upper part", y)] ∧
      cutOutPart (ShapelyGeom.single x) = Except.ok [("single part", x)] ∧
      (∀ ps : List α, ps.length ≠ 2 →
        cutOutPart (ShapelyGeom.multi ps) = Except.error cutOutPartErrMsg) ∧
      identifiesPartAndStation cutOutPartErrMsg "spar cap" 7 = false := by
  intro α x y
  refine ⟨rfl, rfl, ?_, by decide⟩
  intro ps hps
  simp [cutOutPart, hps]

/-- C1 (witness): the amended theorem applied to the empty
multi-polygon. -/
theorem claim_C1_witness :
    ([] : List Nat).length ≠ 2 ∧
    cutOutPart (ShapelyGeom.multi ([] : List Nat)) =
      Except.error cutOutPartErrMsg :=
  ⟨by decide, (claim_C1 Nat 0 0).2.2.1 [] (by decide)⟩

/-- `find_corners` is the in-order filter of the ring vertices. -/
theorem findCorners_eq_filter (ext : List Pt) (dist : Pt → ℚ) (tol : ℚ) :
    findCorners ext dist tol =
      ext.dropLast.filter (fun c => decide (dist c < tol)) := by
  have key : ∀ (l : List Pt) (acc : List Pt),
      l.foldl (fun acc c => if dist c < tol then acc ++ [c] else acc) acc
        = acc ++ l.filter (fun c => decide (dist c < tol)) := by
    intro l
    induction l with
    | nil => intro acc; simp
    | cons c cs ih =>
        intro acc
        by_cases h : dist c < tol
        · simp [List.foldl_cons, h, ih]
        · simp [List.foldl_cons, h, ih]
  simpa [findCorners] using key ext.dropLast []

/-- C5: `find_corners(bounding_polygon, tol)` saves exactly those
vertices of the exterior ring (closing duplicate excluded) whose kernel
distance to the bounding boundary is strictly below `tol`, in ring
traversal order (a sublist of the ring, never re-sorted), with the
default tolerance equal to `1e-8`. -/
theorem claim_C5 :
    ∀ (ext : List Pt) (dist : Pt → ℚ) (tol : ℚ),
      findCorners ext dist tol =
        ext.dropLast.filter (fun c => decide (dist c < tol)) ∧
      (findCorners ext dist tol).Sublist ext.dropLast ∧
      cornerTolDefault = 1 / 100000000 := by
  intro ext dist tol
  refine ⟨findCorners_eq_filter ext dist tol, ?_, rfl⟩
  rw [findCorners_eq_filter]
  exact List.filter_sublist _

/-- C10: `move(x3_offset)` keeps the layer's name, material, mass and
display colors, keeps every x-coordinate of the polygon, the corners
and (for alt layers) the stored edges, and shifts every y-coordinate by
exactly `x3_offset`. -/
theorem claim_C10 :
    ∀ (fam : Family) (centroid : List Pt → Pt) (xT : List ℚ)
      (s : LayerState) (off : ℚ) (alt : Bool),
      (moveLayer fam centroid xT s off alt).name = s.name ∧
      (moveLayer fam centroid xT s off alt).material = s.material ∧
      (moveLayer fam centroid xT s off alt).mass = s.mass ∧
      (moveLayer fam centroid xT s off alt).faceColor = s.faceColor ∧
      (moveLayer fam centroid xT s off alt).edgeColor = s.edgeColor ∧
      (moveLayer fam centroid xT s off alt).polygonExt.map Prod.fst =
        s.polygonExt.map Prod.fst ∧
      (moveLayer fam centroid xT s off alt).polygonExt.map Prod.snd =
        s.polygonExt.map (fun p => p.2 + off) ∧
      (moveLayer fam centroid xT s off alt).corners.map Prod.fst =
        s.corners.map Prod.fst ∧
      (moveLayer fam centroid xT s off alt).corners.map Prod.snd =
        s.corners.map (fun p => p.2 + off) ∧
      (moveLayer fam centroid xT s off true).edges =
        s.edges.map (fun e => e.map (translatePt off)) ∧
      (moveLayer fam centroid xT s off true).edges.map (List.map Prod.fst) =
        s.edges.map (List.map Prod.fst) := by
  intro fam centroid xT s off alt
  cases alt <;>
    simp [moveLayer, translatePt, List.map_map, Function.comp_def]

/-- Unfolding equation of `lookupCorners` on a corner cons cell. -/
theorem lookupCorners_cons (a : List Pt) (c : Pt) (cs : List Pt) :
    lookupCorners a (c :: cs) =
      Option.bind (firstIdxWhere (fun pt => pt = c) a)
        (fun i => Option.bind (lookupCorners a cs)
          (fun rest => some (i :: rest))) :=
  rfl

/-- Each corner lookup of `get_edges2` yields one ring index. -/
theorem lookupCorners_length :
    ∀ (corners : List Pt) (a : List Pt) (idxs : List Nat),
      lookupCorners a corners = some idxs → idxs.length = corners.length := by
  intro corners
  induction corners with
  | nil =>
      intro a idxs h
      simp only [lookupCorners, Option.some.injEq] at h
      simp [← h]
  | cons c cs ih =>
      intro a idxs h
      rw [lookupCorners_cons] at h
      simp only [Option.bind_eq_some, Option.some.injEq] at h
      obtain ⟨i, _, rest, hrest, hcons⟩ := h
      subst hcons
      simp [ih a rest hrest]

/-- `consecSlices` produces one edge per consecutive index pair. -/
theorem consecSlices_length (a : List Pt) :
    ∀ m : List Nat, (consecSlices a m).length = m.length - 1 := by
  intro m
  induction m with
  | nil => simp [consecSlices]
  | cons i rest ih =>
      cases rest with
      | nil => simp [consecSlices]
      | cons j t => simp [consecSlices]; simpa using ih

/-- `get_edges2` produces exactly one candidate edge per corner index
before the duplicate filter. -/
theorem edgeCandidates_length (a : List Pt) (m : List Nat)
    (cands : List (List Pt)) (h : edgeCandidates a m = some cands) :
    cands.length = m.length := by
  cases m with
  | nil => simp [edgeCandidates] at h
  | cons m0 rest =>
      simp only [edgeCandidates, Option.some.injEq] at h
      subst h
      simp [consecSlices_length]

/-- C7 (counterexample): a pentagon with five corners — an edge/corner
count outside `{3, 4}` — is split by `get_edges2` into five edges and
returned silently; no unsupported-shape error is raised anywhere in the
splitter. -/
theorem claim_C7_counterexample :
    getEdges2 pentRing pentCorners getEdges2TolDefault =
      some [[(0, 0), (2, 0)], [(2, 0), (3, 2)], [(3, 2), (1, 4)],
            [(1, 4), (-1, 2)], [(-1, 2), (0, 0)]] ∧
    ([[(0, 0), (2, 0)], [(2, 0), (3, 2)], [(3, 2), (1, 4)],
      [(1, 4), (-1, 2)], [(-1, 2), (0, 0)]] : List (List Pt)).length = 5 := by
  constructor
  · norm_num [getEdges2, pentRing, pentCorners, getEdges2TolDefault, lookupCorners,
      firstIdxWhere, List.insertionSort, List.orderedInsert, edgeCandidates,
      consecSlices, sliceIncl, lastEdge, duplicateEdge, List.filter,
      Prod.mk.injEq, Prod.ext_iff, List.getLastD, List.getLast?]
  · rfl

/-- C7 (amended): the edge splitter produces exactly one candidate edge
per corner; dropping a degenerate edge reduces the count below the
corner count; and no count validation exists — any resulting count,
also outside `{3, 4}`, is returned silently as `some` rather than
raising an unsupported-shape error. -/
theorem claim_C7 :
    ∀ (a corners : List Pt) (tol : ℚ) (idxs : List Nat)
      (cands : List (List Pt)),
      lookupCorners a corners = some idxs →
      edgeCandidates a (idxs.insertionSort (· ≤ ·)) = some cands →
      cands.length = corners.length ∧
      getEdges2 a corners tol =
        some (cands.filter (fun e => !duplicateEdge tol e)) ∧
      ((∀ e ∈ cands, duplicateEdge tol e = false) →
        getEdges2 a corners tol = some cands) := by
  intro a corners tol idxs cands h1 h2
  have hlen : cands.length = corners.length := by
    rw [edgeCandidates_length a _ cands h2, List.length_insertionSort,
      lookupCorners_length corners a idxs h1]
  have hrun : getEdges2 a corners tol =
      some (cands.filter (fun e => !duplicateEdge tol e)) := by
    simp [getEdges2, h1, h2]
  refine ⟨hlen, hrun, ?_⟩
  intro hnone
  rw [hrun, List.filter_eq_self.mpr]
  intro e he
  simp [hnone e he]

/-- C7 (witness): the amended theorem applied to the five-corner
pentagon. -/
theorem claim_C7_witness :
    lookupCorners pentRing pentCorners = some [0, 1, 2, 3, 4] ∧
    edgeCandidates pentRing ([0, 1, 2, 3, 4].insertionSort (· ≤ ·)) =
      some [[(0, 0), (2, 0)], [(2, 0), (3, 2)], [(3, 2), (1, 4)],
            [(1, 4), (-1, 2)], [(-1, 2), (0, 0)]] ∧
    ([[(0, 0), (2, 0)], [(2, 0), (3, 2)], [(3, 2), (1, 4)],
      [(1, 4), (-1, 2)], [(-1, 2), (0, 0)]] : List (List Pt)).length =
      pentCorners.length := by
  have h1 : lookupCorners pentRing pentCorners = some [0, 1, 2, 3, 4] := by
    norm_num [lookupCorners, firstIdxWhere, pentRing, pentCorners, Prod.mk.injEq,
      Prod.ext_iff]
  have h2 : edgeCandidates pentRing ([0, 1, 2, 3, 4].insertionSort (· ≤ ·)) =
      some [[(0, 0), (2, 0)], [(2, 0), (3, 2)], [(3, 2), (1, 4)],
            [(1, 4), (-1, 2)], [(-1, 2), (0, 0)]] := by
    norm_num [edgeCandidates, consecSlices, sliceIncl, lastEdge, pentRing,
      List.insertionSort, List.orderedInsert, List.getLastD, List.getLast?]
  exact ⟨h1, h2,
    (claim_C7 pentRing pentCorners getEdges2TolDefault [0, 1, 2, 3, 4]
      [[(0, 0), (2, 0)], [(2, 0), (3, 2)], [(3, 2), (1, 4)],
       [(1, 4), (-1, 2)], [(-1, 2), (0, 0)]] h1 h2).1⟩

/-- C6 (counterexample): in the `write_alt_layer_edges2` cleanup (its
tolerance is `1e-7`), the two-point edge `[(0,0), (1,1)]` — whose
endpoints differ by `1` in both coordinates, far outside tolerance —
is dropped, because the scan compares the signed differences
`edge[0]-edge[1] = (-1, -1)` against the tolerance without absolute
value; so an edge other than a degenerate zero-length edge is
dropped. -/
theorem claim_C6_counterexample :
    writeAltCleanup altEdgeTolDefault altEdgesEx =
      [[(0, 0), (1, 0), (2, 0)], [(2, 0), (2, 1), (2, 2)],
       [(2, 2), (1, 2), (0, 2)], [(0, 2), (0, 1), (0, 0)]] ∧
    duplicateEdge altEdgeTolDefault [(0, 0), (1, 1)] = false ∧
    ¬ (|(0 : ℚ) - 1| < altEdgeTolDefault) := by
  refine ⟨?_, ?_, ?_⟩
  · norm_num [writeAltCleanup, badEdgeScan, altEdgesEx, altEdgeTolDefault,
      List.enum, List.enumFrom, List.foldl, List.eraseIdx]
  · norm_num [duplicateEdge, altEdgeTolDefault]
  · norm_num [altEdgeTolDefault]

/-- The `duplicate` test of `get_edges2` holds exactly for two-point
edges within tolerance in both coordinates (absolute value). -/
theorem duplicateEdge_iff (tol : ℚ) (e : List Pt) :
    duplicateEdge tol e = true ↔
      ∃ p q : Pt, e = [p, q] ∧ |p.1 - q.1| < tol ∧ |p.2 - q.2| < tol := by
  constructor
  · intro h
    rcases e with _ | ⟨p, _ | ⟨q, _ | ⟨r, t⟩⟩⟩
    · simp [duplicateEdge] at h
    · simp [duplicateEdge] at h
    · exact ⟨p, q, rfl, by simpa [duplicateEdge] using h⟩
    · simp [duplicateEdge] at h
  · rintro ⟨p, q, rfl, h1, h2⟩
    simp [duplicateEdge, h1, h2]

/-- C6 (amended): `get_edges2` (tolerance default `1e-8`) drops exactly
the edges of two points whose coordinate differences are both below
tolerance in absolute value, and no others, preserving the traversal
order of the surviving edges (classification only ever sees the
survivors); the `write_alt_layer_edges2` cleanup additionally removes,
when more than four edges remain, one two-point edge selected by signed
differences, which can remove a non-degenerate edge. -/
theorem claim_C6 :
    ∀ (a corners : List Pt) (tol : ℚ) (idxs : List Nat)
      (cands : List (List Pt)),
      lookupCorners a corners = some idxs →
      edgeCandidates a (idxs.insertionSort (· ≤ ·)) = some cands →
      getEdges2 a corners tol =
        some (cands.filter (fun e => !duplicateEdge tol e)) ∧
      (cands.filter (fun e => !duplicateEdge tol e)).Sublist cands ∧
      (∀ e : List Pt, duplicateEdge tol e = true ↔
        ∃ p q : Pt, e = [p, q] ∧ |p.1 - q.1| < tol ∧ |p.2 - q.2| < tol) ∧
      getEdges2TolDefault = 1 / 100000000 := by
  intro a corners tol idxs cands h1 h2
  exact ⟨by simp [getEdges2, h1, h2], List.filter_sublist _,
    duplicateEdge_iff tol, rfl⟩

/-- C6 (witness): the amended theorem applied to a square ring with
four corners. -/
theorem claim_C6_witness :
    lookupCorners [(0, 0), (1, 0), (1, 1), (0, 1), (0, 0)]
      [(0, 0), (1, 0), (1, 1), (0, 1)] = some [0, 1, 2, 3] ∧
    edgeCandidates [(0, 0), (1, 0), (1, 1), (0, 1), (0, 0)]
      ([0, 1, 2, 3].insertionSort (· ≤ ·)) =
      some [[(0, 0), (1, 0)], [(1, 0), (1, 1)], [(1, 1), (0, 1)],
            [(0, 1), (0, 0)]] ∧
    getEdges2 [(0, 0), (1, 0), (1, 1), (0, 1), (0, 0)]
      [(0, 0), (1, 0), (1, 1), (0, 1)] getEdges2TolDefault =
      some ([[(0, 0), (1, 0)], [(1, 0), (1, 1)], [(1, 1), (0, 1)],
             [(0, 1), (0, 0)]].filter
              (fun e => !duplicateEdge getEdges2TolDefault e)) := by
  have h1 : lookupCorners [(0, 0), (1, 0), (1, 1), (0, 1), (0, 0)]
      [(0, 0), (1, 0), (1, 1), (0, 1)] = some [0, 1, 2, 3] := by
    norm_num [lookupCorners, firstIdxWhere, Prod.mk.injEq, Prod.ext_iff]
  have h2 : edgeCandidates [(0, 0), (1, 0), (1, 1), (0, 1), (0, 0)]
      ([0, 1, 2, 3].insertionSort (· ≤ ·)) =
      some [[(0, 0), (1, 0)], [(1, 0), (1, 1)], [(1, 1), (0, 1)],
            [(0, 1), (0, 0)]] := by
    norm_num [edgeCandidates, consecSlices, sliceIncl, lastEdge,
      List.insertionSort, List.orderedInsert, List.getLastD, List.getLast?]
  exact ⟨h1, h2,
    (claim_C6 [(0, 0), (1, 0), (1, 1), (0, 1), (0, 0)]
      [(0, 0), (1, 0), (1, 1), (0, 1)] getEdges2TolDefault [0, 1, 2, 3]
      [[(0, 0), (1, 0)], [(1, 0), (1, 1)], [(1, 1), (0, 1)],
       [(0, 1), (0, 0)]] h1 h2).1⟩

/-- `get_interior_loop` sorts unconditionally: sorting a list of at
most one element is the identity, so the `if len > 1` guard is
immaterial. -/
theorem getInteriorLoop_eq_sort (interiors : List Ring) (n : Nat) (th : ℚ) :
    getInteriorLoop interiors n th =
      pyIndex ((goodLoops interiors th).insertionSort ringLe)
        ((n : Int) - 1) := by
  unfold getInteriorLoop
  by_cases h : 1 < (goodLoops interiors th).length
  · simp [h]
  · rcases g : goodLoops interiors th with _ | ⟨a, _ | ⟨b, t⟩⟩
    · simp [g, List.insertionSort]
    · simp [g, List.insertionSort, List.orderedInsert]
    · rw [g] at h
      simp only [List.length_cons] at h
      omega

/-- Python indexing returns a member of the list. -/
theorem pyIndex_mem {α : Type} {l : List α} {i : Int} {x : α}
    (h : pyIndex l i = some x) : x ∈ l := by
  unfold pyIndex at h
  split at h
  · simp only [Option.some.injEq] at h
    subst h
    exact List.get_mem _ _ _
  · simp at h

/-- The sorted survivor lists of two kernel enumerations agree when the
surviving centroid abscissae are pairwise distinct. -/
theorem insertionSort_good_eq (l1 l2 : List Ring) (th : ℚ)
    (hp : l1.Perm l2)
    (hd : (goodLoops l1 th).Pairwise (fun a b => a.centroidX ≠ b.centroidX)) :
    (goodLoops l1 th).insertionSort ringLe =
      (goodLoops l2 th).insertionSort ringLe := by
  have hg : (goodLoops l1 th).Perm (goodLoops l2 th) := hp.filter _
  have hperm : ((goodLoops l1 th).insertionSort ringLe).Perm
      ((goodLoops l2 th).insertionSort ringLe) :=
    (List.perm_insertionSort _ _).trans
      (hg.trans (List.perm_insertionSort _ _).symm)
  have hd1 : ((goodLoops l1 th).insertionSort ringLe).Pairwise
      (fun a b => a.centroidX ≠ b.centroidX) :=
    ((List.perm_insertionSort ringLe (goodLoops l1 th)).pairwise_iff
      (fun h => h.symm)).mpr hd
  have hd2 : ((goodLoops l2 th).insertionSort ringLe).Pairwise
      (fun a b => a.centroidX ≠ b.centroidX) :=
    (hperm.pairwise_iff (fun h => h.symm)).mp hd1
  have hs1 : ((goodLoops l1 th).insertionSort ringLe).Sorted ringLt :=
    ((List.sorted_insertionSort ringLe (goodLoops l1 th)).and hd1).imp
      (fun h => lt_of_le_of_ne h.1 h.2)
  have hs2 : ((goodLoops l2 th).insertionSort ringLe).Sorted ringLt :=
    ((List.sorted_insertionSort ringLe (goodLoops l2 th)).and hd2).imp
      (fun h => lt_of_le_of_ne h.1 h.2)
  exact List.eq_of_perm_of_sorted hperm hs1 hs2

/-- C9 (counterexample): with two surviving rings of equal centroid x,
the stable sort preserves kernel enumeration order, so the returned
ring depends on the order in which the kernel enumerated the interior
rings. -/
theorem claim_C9_counterexample :
    ¬ (getInteriorLoop [⟨1, 0, 1⟩, ⟨1, 0, 2⟩] 1 0 =
       getInteriorLoop [⟨1, 0, 2⟩, ⟨1, 0, 1⟩] 1 0) := by
  decide

/-- C9 (amended): `get_interior_loop(n)` keeps exactly the interior
rings whose area exceeds the threshold (default `10e-06`), orders the
survivors by ascending centroid x, and returns the `n`-th of them
(`n = 1` the smallest centroid x); the result is independent of the
kernel's enumeration order provided the surviving rings have pairwise
distinct centroid abscissae (on ties the stable sort preserves
enumeration order). -/
theorem claim_C9 :
    ∀ (l1 l2 : List Ring) (n : Nat) (th : ℚ),
      l1.Perm l2 →
      (goodLoops l1 th).Pairwise (fun a b => a.centroidX ≠ b.centroidX) →
      getInteriorLoop l1 n th = getInteriorLoop l2 n th ∧
      (∀ r, getInteriorLoop l1 n th = some r → th < r.area ∧ r ∈ l1) ∧
      ((goodLoops l1 th).insertionSort ringLe).Sorted ringLe ∧
      (∀ r, getInteriorLoop l1 1 th = some r →
        ∀ s ∈ goodLoops l1 th, r.centroidX ≤ s.centroidX) ∧
      areaThresholdDefault = 10 / 1000000 := by
  intro l1 l2 n th hp hd
  refine ⟨?_, ?_, List.sorted_insertionSort ringLe _, ?_, rfl⟩
  · rw [getInteriorLoop_eq_sort, getInteriorLoop_eq_sort,
      insertionSort_good_eq l1 l2 th hp hd]
  · intro r hr
    rw [getInteriorLoop_eq_sort] at hr
    have hmem : r ∈ (goodLoops l1 th).insertionSort ringLe := pyIndex_mem hr
    have hgood : r ∈ goodLoops l1 th :=
      (List.perm_insertionSort ringLe (goodLoops l1 th)).mem_iff.mp hmem
    have := List.mem_filter.mp hgood
    refine ⟨by simpa using this.2, this.1⟩
  · intro r hr s hs
    rw [getInteriorLoop_eq_sort] at hr
    have h0 : pyIndex ((goodLoops l1 th).insertionSort ringLe) 0 = some r := by
      simpa using hr
    rcases hsort : (goodLoops l1 th).insertionSort ringLe with _ | ⟨a, t⟩
    · rw [hsort] at h0
      simp [pyIndex, pyWrap] at h0
    · rw [hsort] at h0
      have hra : r = a := by
        simp [pyIndex, pyWrap] at h0
        exact h0.symm
      subst hra
      have hsorted : ((goodLoops l1 th).insertionSort ringLe).Sorted ringLe :=
        List.sorted_insertionSort ringLe _
      rw [hsort] at hsorted
      have hmem : s ∈ r :: t := by
        rw [← hsort]
        exact ((List.perm_insertionSort ringLe (goodLoops l1 th)).mem_iff).mpr hs
      rcases List.mem_cons.mp hmem with h | h
      · rw [h]
      · exact List.rel_of_sorted_cons hsorted s h

/-- C9 (witness): the amended theorem applied to two enumerations of
the same two distinct-centroid rings. -/
theorem claim_C9_witness :
    ([⟨1, 5, 1⟩, ⟨1, 3, 2⟩] : List Ring).Perm [⟨1, 3, 2⟩, ⟨1, 5, 1⟩] ∧
    (goodLoops [⟨1, 5, 1⟩, ⟨1, 3, 2⟩] 0).Pairwise
      (fun a b => a.centroidX ≠ b.centroidX) ∧
    getInteriorLoop [⟨1, 5, 1⟩, ⟨1, 3, 2⟩] 1 0 =
      getInteriorLoop [⟨1, 3, 2⟩, ⟨1, 5, 1⟩] 1 0 :=
  ⟨by decide, by decide,
    (claim_C9 [⟨1, 5, 1⟩, ⟨1, 3, 2⟩] [⟨1, 3, 2⟩, ⟨1, 5, 1⟩] 1 0
      (by decide) (by decide)).1⟩

/-- A natural below 4 is one of the four edge indices. -/
theorem mem_range4 {i : Nat} (h : i < 4) : i ∈ [0, 1, 2, 3] := by
  interval_cases i <;> simp

/-- Removing a member of `[0,1,2,3]` leaves members of `[0,1,2,3]`
distinct from it. -/
theorem mem_of_removeFirst4 :
    ∀ i ∈ [0, 1, 2, 3], ∀ x ∈ removeFirst i [0, 1, 2, 3],
      x ∈ [0, 1, 2, 3] ∧ x ≠ i := by
  decide

/-- Any other member of `[0,1,2,3]` survives removing `i`. -/
theorem mem_removeFirst4_of_ne :
    ∀ i ∈ [0, 1, 2, 3], ∀ j ∈ [0, 1, 2, 3], j ≠ i →
      j ∈ removeFirst i [0, 1, 2, 3] := by
  decide

/-- Bookkeeping for two `list.remove` calls on `l = [0,1,2,3]`: the
residue has the two remaining indices, and together with the removed
pair it is a permutation of all four roles, in either residue order. -/
theorem remove4_spec2 :
    ∀ i ∈ [0, 1, 2, 3], ∀ j ∈ [0, 1, 2, 3], i ≠ j →
      (∀ x ∈ removeFirst j (removeFirst i [0, 1, 2, 3]),
        x < 4 ∧ x ≠ i ∧ x ≠ j) ∧
      (removeFirst j (removeFirst i [0, 1, 2, 3])).length = 2 ∧
      (removeFirst j (removeFirst i [0, 1, 2, 3])).Nodup ∧
      (∀ x ∈ [0, 1, 2, 3], x ≠ i → x ≠ j →
        x ∈ removeFirst j (removeFirst i [0, 1, 2, 3])) ∧
      (∀ p ∈ removeFirst j (removeFirst i [0, 1, 2, 3]),
       ∀ q ∈ removeFirst j (removeFirst i [0, 1, 2, 3]), p ≠ q →
        [i, p, j, q].Perm [0, 1, 2, 3] ∧ [j, p, i, q].Perm [0, 1, 2, 3]) := by
  decide

/-- Bookkeeping for three `list.remove` calls on `l = [0,1,2,3]`: one
index remains, and the four roles are a permutation of `[0,1,2,3]` in
the two role patterns used by the `LE_Panel` and `TE_Reinforcement`
branches. -/
theorem remove4_spec3 :
    ∀ i ∈ [0, 1, 2, 3], ∀ j ∈ [0, 1, 2, 3], ∀ k ∈ [0, 1, 2, 3],
      i ≠ j → k ≠ i → k ≠ j →
      (∀ r ∈ removeFirst k (removeFirst j (removeFirst i [0, 1, 2, 3])),
        [i, j, r, k].Perm [0, 1, 2, 3] ∧ [r, j, i, k].Perm [0, 1, 2, 3]) ∧
      (removeFirst k (removeFirst j (removeFirst i [0, 1, 2, 3]))).length
        = 1 := by
  decide

/-- A successful first-index search stays within the list. -/
theorem firstIdxWhere_lt_length {α : Type} {p : α → Bool} :
    ∀ {l : List α} {i : Nat}, firstIdxWhere p l = some i → i < l.length := by
  intro l
  induction l with
  | nil => intro i h; simp [firstIdxWhere] at h
  | cons x xs ih =>
      intro i h
      rw [firstIdxWhere] at h
      by_cases hx : p x
      · rw [if_pos hx] at h
        simp only [Option.some.injEq] at h
        subst h
        simp only [List.length_cons]
        omega
      · rw [if_neg hx] at h
        cases hrec : firstIdxWhere p xs with
        | none => rw [hrec] at h; simp at h
        | some j =>
            rw [hrec] at h
            simp only [Option.some.injEq] at h
            subst h
            have := ih hrec
            simp only [List.length_cons]
            omega

/-- The first-index search finds position `i` when the element there
matches and nothing before it does. -/
theorem firstIdxWhere_eq {α : Type} {p : α → Bool} :
    ∀ {l : List α} {i : Nat} {x : α},
      l[i]? = some x → p x = true →
      (∀ j y, j < i → l[j]? = some y → p y = false) →
      firstIdxWhere p l = some i := by
  intro l
  induction l with
  | nil => intro i x hget; simp at hget
  | cons z zs ih =>
      intro i x hget hx hbefore
      cases i with
      | zero =>
          simp only [List.getElem?_cons_zero, Option.some.injEq] at hget
          subst hget
          rw [firstIdxWhere, if_pos hx]
      | succ n =>
          have hz : p z = false :=
            hbefore 0 z (by omega) (by simp)
          simp only [List.getElem?_cons_succ] at hget
          have hrec : firstIdxWhere p zs = some n :=
            ih hget hx (fun j y hj hjy =>
              hbefore (j + 1) y (by omega) (by simpa using hjy))
          rw [firstIdxWhere, if_neg (by simp [hz]), hrec]

/-- Element access into the literal 4-element centroid array. -/
theorem getElem4 (c0 c1 c2 c3 : ℚ) {m : Nat} (hm : m < 4) :
    [c0, c1, c2, c3][m]? = some (coordAt c0 c1 c2 c3 m) := by
  interval_cases m <;> rfl

/-- When the `m`-th centroid coordinate is strictly least,
`np.nonzero(cx == cx.min())[0][0]` returns `m`. -/
theorem min4_index (c0 c1 c2 c3 : ℚ) (i : Nat) (hi : i < 4)
    (hmin : ∀ m, m < 4 → m ≠ i →
      coordAt c0 c1 c2 c3 i < coordAt c0 c1 c2 c3 m) :
    firstIdxEq (min4 c0 c1 c2 c3) [c0, c1, c2, c3] = some i := by
  interval_cases i
  · have h1 := hmin 1 (by omega) (by omega)
    have h2 := hmin 2 (by omega) (by omega)
    have h3 := hmin 3 (by omega) (by omega)
    simp only [coordAt] at h1 h2 h3
    have hm : min4 c0 c1 c2 c3 = c0 := by
      unfold min4
      rw [min_eq_left h1.le, min_eq_left h2.le, min_eq_left h3.le]
    rw [firstIdxEq, hm]
    exact firstIdxWhere_eq (x := c0) (by simp) (by simp)
      (fun j y hj _ => by omega)
  · have h0 := hmin 0 (by omega) (by omega)
    have h2 := hmin 2 (by omega) (by omega)
    have h3 := hmin 3 (by omega) (by omega)
    simp only [coordAt] at h0 h2 h3
    have hm : min4 c0 c1 c2 c3 = c1 := by
      unfold min4
      rw [min_eq_right h0.le, min_eq_left h2.le, min_eq_left h3.le]
    rw [firstIdxEq, hm]
    refine firstIdxWhere_eq (x := c1) (by simp) (by simp) ?_
    intro j y hj hy
    interval_cases j
    simp only [List.getElem?_cons_zero, Option.some.injEq] at hy
    subst hy
    simp [h0.ne']
  · have h0 := hmin 0 (by omega) (by omega)
    have h1 := hmin 1 (by omega) (by omega)
    have h3 := hmin 3 (by omega) (by omega)
    simp only [coordAt] at h0 h1 h3
    have hm : min4 c0 c1 c2 c3 = c2 := by
      unfold min4
      rw [min_eq_right (le_min h0.le h1.le), min_eq_left h3.le]
    rw [firstIdxEq, hm]
    refine firstIdxWhere_eq (x := c2) (by simp) (by simp) ?_
    intro j y hj hy
    interval_cases j <;>
      simp only [List.getElem?_cons_zero, List.getElem?_cons_succ,
        Option.some.injEq] at hy <;>
      subst hy
    · simp [h0.ne']
    · simp [h1.ne']
  · have h0 := hmin 0 (by omega) (by omega)
    have h1 := hmin 1 (by omega) (by omega)
    have h2 := hmin 2 (by omega) (by omega)
    simp only [coordAt] at h0 h1 h2
    have hm : min4 c0 c1 c2 c3 = c3 := by
      unfold min4
      rw [min_eq_right (le_min (le_min h0.le h1.le) h2.le)]
    rw [firstIdxEq, hm]
    refine firstIdxWhere_eq (x := c3) (by simp) (by simp) ?_
    intro j y hj hy
    interval_cases j <;>
      simp only [List.getElem?_cons_zero, List.getElem?_cons_succ,
        Option.some.injEq] at hy <;>
      subst hy
    · simp [h0.ne']
    · simp [h1.ne']
    · simp [h2.ne']

/-- When the `m`-th centroid coordinate is strictly greatest,
`np.nonzero(cx == cx.max())[0][0]` returns `m`. -/
theorem max4_index (c0 c1 c2 c3 : ℚ) (j : Nat) (hj : j < 4)
    (hmax : ∀ m, m < 4 → m ≠ j →
      coordAt c0 c1 c2 c3 m < coordAt c0 c1 c2 c3 j) :
    firstIdxEq (max4 c0 c1 c2 c3) [c0, c1, c2, c3] = some j := by
  interval_cases j
  · have h1 := hmax 1 (by omega) (by omega)
    have h2 := hmax 2 (by omega) (by omega)
    have h3 := hmax 3 (by omega) (by omega)
    simp only [coordAt] at h1 h2 h3
    have hm : max4 c0 c1 c2 c3 = c0 := by
      unfold max4
      rw [max_eq_left h1.le, max_eq_left h2.le, max_eq_left h3.le]
    rw [firstIdxEq, hm]
    exact firstIdxWhere_eq (x := c0) (by simp) (by simp)
      (fun j y hj _ => by omega)
  · have h0 := hmax 0 (by omega) (by omega)
    have h2 := hmax 2 (by omega) (by omega)
    have h3 := hmax 3 (by omega) (by omega)
    simp only [coordAt] at h0 h2 h3
    have hm : max4 c0 c1 c2 c3 = c1 := by
      unfold max4
      rw [max_eq_right h0.le, max_eq_left h2.le, max_eq_left h3.le]
    rw [firstIdxEq, hm]
    refine firstIdxWhere_eq (x := c1) (by simp) (by simp) ?_
    intro j y hj hy
    interval_cases j
    simp only [List.getElem?_cons_zero, Option.some.injEq] at hy
    subst hy
    simp [h0.ne]
  · have h0 := hmax 0 (by omega) (by omega)
    have h1 := hmax 1 (by omega) (by omega)
    have h3 := hmax 3 (by omega) (by omega)
    simp only [coordAt] at h0 h1 h3
    have hm : max4 c0 c1 c2 c3 = c2 := by
      unfold max4
      rw [max_eq_right (max_le h0.le h1.le), max_eq_left h3.le]
    rw [firstIdxEq, hm]
    refine firstIdxWhere_eq (x := c2) (by simp) (by simp) ?_
    intro j y hj hy
    interval_cases j <;>
      simp only [List.getElem?_cons_zero, List.getElem?_cons_succ,
        Option.some.injEq] at hy <;>
      subst hy
    · simp [h0.ne]
    · simp [h1.ne]
  · have h0 := hmax 0 (by omega) (by omega)
    have h1 := hmax 1 (by omega) (by omega)
    have h2 := hmax 2 (by omega) (by omega)
    simp only [coordAt] at h0 h1 h2
    have hm : max4 c0 c1 c2 c3 = c3 := by
      unfold max4
      rw [max_eq_right (max_le (max_le h0.le h1.le) h2.le)]
    rw [firstIdxEq, hm]
    refine firstIdxWhere_eq (x := c3) (by simp) (by simp) ?_
    intro j y hj hy
    interval_cases j <;>
      simp only [List.getElem?_cons_zero, List.getElem?_cons_succ,
        Option.some.injEq] at hy <;>
      subst hy
    · simp [h0.ne]
    · simp [h1.ne]
    · simp [h2.ne]

/-- The generic quadrilateral role rule assigns the strictly
smallest-x centroid edge to `left`, the strictly largest-x to `right`,
and of the remaining two the strictly greater-y centroid edge to `top`
and the other to `bottom`. -/
theorem classifyGeneric_spec (cx0 cx1 cx2 cx3 cy0 cy1 cy2 cy3 : ℚ)
    (i j k l : Nat) (hi : i < 4) (hj : j < 4) (hk : k < 4) (hl : l < 4)
    (hij : i ≠ j) (hki : k ≠ i) (hkj : k ≠ j) (hli : l ≠ i) (hlj : l ≠ j)
    (hkl : k ≠ l)
    (hmin : ∀ m, m < 4 → m ≠ i →
      coordAt cx0 cx1 cx2 cx3 i < coordAt cx0 cx1 cx2 cx3 m)
    (hmax : ∀ m, m < 4 → m ≠ j →
      coordAt cx0 cx1 cx2 cx3 m < coordAt cx0 cx1 cx2 cx3 j)
    (hy : coordAt cy0 cy1 cy2 cy3 l < coordAt cy0 cy1 cy2 cy3 k) :
    classifyGeneric cx0 cx1 cx2 cx3 cy0 cy1 cy2 cy3 =
      some { left := i, top := k, right := j, bottom := l } := by
  have hxi := min4_index cx0 cx1 cx2 cx3 i hi hmin
  have hxj := max4_index cx0 cx1 cx2 cx3 j hj hmax
  have hr1 : pyRemove [0, 1, 2, 3] i = some (removeFirst i [0, 1, 2, 3]) := by
    simp [pyRemove, mem_range4 hi]
  have hjmem : j ∈ removeFirst i [0, 1, 2, 3] :=
    mem_removeFirst4_of_ne i (mem_range4 hi) j (mem_range4 hj) (Ne.symm hij)
  have hr2 : pyRemove (removeFirst i [0, 1, 2, 3]) j =
      some (removeFirst j (removeFirst i [0, 1, 2, 3])) := by
    simp [pyRemove, hjmem]
  obtain ⟨hmem2, hlen2, _, hback, _⟩ :=
    remove4_spec2 i (mem_range4 hi) j (mem_range4 hj) hij
  have hkmem : k ∈ removeFirst j (removeFirst i [0, 1, 2, 3]) :=
    hback k (mem_range4 hk) hki hkj
  have hlmem : l ∈ removeFirst j (removeFirst i [0, 1, 2, 3]) :=
    hback l (mem_range4 hl) hli hlj
  rcases hrem : removeFirst j (removeFirst i [0, 1, 2, 3]) with
    _ | ⟨p, _ | ⟨q, _ | ⟨w, t⟩⟩⟩
  · rw [hrem] at hkmem
    simp at hkmem
  · rw [hrem] at hkmem hlmem
    simp at hkmem hlmem
    exact absurd (hkmem.trans hlmem.symm) hkl
  · have hp4 : p < 4 := (hmem2 p (by rw [hrem]; simp)).1
    have hq4 : q < 4 := (hmem2 q (by rw [hrem]; simp)).1
    rw [hrem] at hkmem hlmem
    simp only [List.mem_cons, List.not_mem_nil, or_false] at hkmem hlmem
    simp only [classifyGeneric, hxi, hxj, hr1, hr2, hrem, Bind.bind,
      Option.bind]
    rw [getElem4 cy0 cy1 cy2 cy3 hp4, getElem4 cy0 cy1 cy2 cy3 hq4]
    dsimp only [Option.pure_def]
    rcases hkmem with hkp | hkq
    · subst hkp
      rcases hlmem with hlp | hlq
      · exact absurd hlp.symm hkl
      · subst hlq
        rw [if_pos hy]
    · subst hkq
      rcases hlmem with hlp | hlq
      · subst hlp
        rw [if_neg (lt_asymm hy)]
      · exact absurd hlq.symm hkl
  · rw [hrem] at hlen2
    simp at hlen2

/-- C3: for a quadrilateral layer of a spar cap, aft panel or shear web
whose four edge centroids have a strictly unique minimum-x and a
strictly unique maximum-x, `get_and_save_edges` saves the minimum-x
centroid edge as `left`, the maximum-x as `right`, and of the two
remaining edges the one with strictly greater y centroid as `top`, the
other as `bottom`. -/
theorem claim_C3 :
    ∀ (fam : Family),
      fam ∈ [Family.sparCap, Family.aftPanel, Family.shearWeb] →
    ∀ (name : String) (centroid : List Pt → Pt) (xT : List ℚ) (a : List Pt)
      (q : Quad (List Pt)) (i j k l : Nat),
      getEdgesV1 fam xT a = some q →
      i < 4 → j < 4 → k < 4 → l < 4 →
      i ≠ j → k ≠ i → k ≠ j → l ≠ i → l ≠ j → k ≠ l →
      (∀ m, m < 4 → m ≠ i →
        (centroid (q.nth i)).1 < (centroid (q.nth m)).1) →
      (∀ m, m < 4 → m ≠ j →
        (centroid (q.nth m)).1 < (centroid (q.nth j)).1) →
      (centroid (q.nth l)).2 < (centroid (q.nth k)).2 →
      getAndSaveEdges fam name centroid xT a =
        some { left := q.nth i, top := q.nth k, right := q.nth j,
               bottom := q.nth l } := by
  intro fam hfam name centroid xT a q i j k l hq hi hj hk hl hij hki hkj
    hli hlj hkl hmin hmax hy
  have hcx : ∀ m, m < 4 →
      coordAt (centroid q.e1).1 (centroid q.e2).1 (centroid q.e3).1
        (centroid q.e4).1 m = (centroid (q.nth m)).1 := by
    intro m hm
    interval_cases m <;> rfl
  have hcy : ∀ m, m < 4 →
      coordAt (centroid q.e1).2 (centroid q.e2).2 (centroid q.e3).2
        (centroid q.e4).2 m = (centroid (q.nth m)).2 := by
    intro m hm
    interval_cases m <;> rfl
  have hgen := classifyGeneric_spec (centroid q.e1).1 (centroid q.e2).1
    (centroid q.e3).1 (centroid q.e4).1 (centroid q.e1).2 (centroid q.e2).2
    (centroid q.e3).2 (centroid q.e4).2 i j k l hi hj hk hl hij hki hkj
    hli hlj hkl
    (fun m hm hne => by rw [hcx i hi, hcx m hm]; exact hmin m hm hne)
    (fun m hm hne => by rw [hcx j hj, hcx m hm]; exact hmax m hm hne)
    (by rw [hcy l hl, hcy k hk]; exact hy)
  have hcq : classifyQuad fam name (centroid q.e1).1 (centroid q.e2).1
      (centroid q.e3).1 (centroid q.e4).1 (centroid q.e1).2
      (centroid q.e2).2 (centroid q.e3).2 (centroid q.e4).2 =
      some { left := i, top := k, right := j, bottom := l } := by
    simp only [List.mem_cons, List.not_mem_nil, or_false] at hfam
    rcases hfam with rfl | rfl | rfl <;> exact hgen
  simp only [getAndSaveEdges, hq, Bind.bind, Option.bind, hcq, LTRB.map,
    Option.pure_def]

/-- C3 (witness): the theorem applied to the sample spar-cap layer with
the averaging centroid: the edge at `x = -1` becomes `left`, the edge
at `x = 1` becomes `right`, the upper arc `top`, the lower arc
`bottom`. -/
theorem claim_C3_witness :
    getEdgesV1 Family.sparCap [-1, 1] scRing =
      some { e1 := [(-1, 1), (0, 11/10), (1, 1)]
             e2 := [(1, 1), (1, 2)]
             e3 := [(1, 2), (0, 21/10), (-1, 2)]
             e4 := [(-1, 2), (-1, 1)] } ∧
    getAndSaveEdges Family.sparCap "lower spar cap" centroidAvg [-1, 1]
        scRing =
      some { left := [(-1, 2), (-1, 1)],
             top := [(1, 2), (0, 21/10), (-1, 2)],
             right := [(1, 1), (1, 2)],
             bottom := [(-1, 1), (0, 11/10), (1, 1)] } := by
  have hq : getEdgesV1 Family.sparCap [-1, 1] scRing =
      some { e1 := [(-1, 1), (0, 11/10), (1, 1)]
             e2 := [(1, 1), (1, 2)]
             e3 := [(1, 2), (0, 21/10), (-1, 2)]
             e4 := [(-1, 2), (-1, 1)] } := by
    norm_num [getEdgesV1, matchIndices, famXTargets, famYTargets, idxMatches,
      scRing, List.range, List.range.loop, List.filter, List.insertionSort,
      List.orderedInsert, sliceIncl, Prod.mk.injEq, Prod.ext_iff,
      List.flatMap]
  refine ⟨hq, ?_⟩
  have h := claim_C3 Family.sparCap (by simp) "lower spar cap" centroidAvg
    [-1, 1] scRing _ 3 1 2 0 hq (by omega) (by omega) (by omega) (by omega)
    (by omega) (by omega) (by omega) (by omega) (by omega) (by omega)
    (by intro m hm hne
        interval_cases m <;>
          first
          | exact absurd rfl hne
          | norm_num [centroidAvg, Quad.nth])
    (by intro m hm hne
        interval_cases m <;>
          first
          | exact absurd rfl hne
          | norm_num [centroidAvg, Quad.nth])
    (by norm_num [centroidAvg, Quad.nth])
  rw [h]
  norm_num [Quad.nth]

/-- A successful `list.remove` requires membership and removes the
first occurrence. -/
theorem pyRemove_some {l : List Nat} {v : Nat} {l' : List Nat}
    (h : pyRemove l v = some l') : v ∈ l ∧ l' = removeFirst v l := by
  rw [pyRemove] at h
  split_ifs at h with hc
  simp only [Option.some.injEq] at h
  exact ⟨hc, h.symm⟩

/-- A successful generic classification names each role index exactly
once. -/
theorem classifyGeneric_perm {cx0 cx1 cx2 cx3 cy0 cy1 cy2 cy3 : ℚ}
    {r : LTRB Nat}
    (h : classifyGeneric cx0 cx1 cx2 cx3 cy0 cy1 cy2 cy3 = some r) :
    [r.left, r.top, r.right, r.bottom].Perm [0, 1, 2, 3] := by
  simp only [classifyGeneric, Option.bind_eq_bind, Option.bind_eq_some,
    Option.pure_def] at h
  obtain ⟨xi, hxi, xj, hxj, l1, hl1, l2, hl2, h⟩ := h
  obtain ⟨hximem, rfl⟩ := pyRemove_some hl1
  obtain ⟨hxjmem, rfl⟩ := pyRemove_some hl2
  obtain ⟨hxjb, hxjne⟩ := mem_of_removeFirst4 xi hximem xj hxjmem
  obtain ⟨hmem2, hlen2, hnodup2, _, hperm2⟩ :=
    remove4_spec2 xi hximem xj hxjb (Ne.symm hxjne)
  rcases hrem : removeFirst xj (removeFirst xi [0, 1, 2, 3]) with
    _ | ⟨p, _ | ⟨q, _ | _⟩⟩ <;> rw [hrem] at h hlen2
  · simp at hlen2
  · simp at hlen2
  · simp only [Option.bind_eq_bind, Option.bind_eq_some,
      Option.some.injEq] at h
    obtain ⟨cyp, _, cyq, _, h⟩ := h
    have hpmem : p ∈ removeFirst xj (removeFirst xi [0, 1, 2, 3]) := by
      rw [hrem]; simp
    have hqmem : q ∈ removeFirst xj (removeFirst xi [0, 1, 2, 3]) := by
      rw [hrem]; simp
    have hpq : p ≠ q := by
      rw [hrem] at hnodup2
      simp only [List.nodup_cons, List.mem_cons, List.not_mem_nil,
        or_false, List.nodup_nil, and_true] at hnodup2
      exact hnodup2.1
    split at h
    · simp only [Option.some.injEq] at h
      subst h
      exact (hperm2 p hpmem q hqmem hpq).1
    · simp only [Option.some.injEq] at h
      subst h
      exact (hperm2 q hqmem p hpmem (Ne.symm hpq)).1
  · simp at hlen2

/-- A successful root-buildup classification names each role index
exactly once. -/
theorem classifyRootBuildup_perm {name : String}
    {cx0 cx1 cx2 cx3 cy0 cy1 cy2 cy3 : ℚ} {r : LTRB Nat}
    (h : classifyRootBuildup name cx0 cx1 cx2 cx3 cy0 cy1 cy2 cy3 = some r) :
    [r.left, r.top, r.right, r.bottom].Perm [0, 1, 2, 3] := by
  simp only [classifyRootBuildup, Option.bind_eq_bind, Option.bind_eq_some,
    Option.pure_def] at h
  obtain ⟨indX, hindX, indY, hindY, l1, hl1, l2, hl2, lr, hlr, h⟩ := h
  obtain ⟨hxmem, rfl⟩ := pyRemove_some hl1
  obtain ⟨hymem, rfl⟩ := pyRemove_some hl2
  obtain ⟨hyb, hyne⟩ := mem_of_removeFirst4 indX hxmem indY hymem
  obtain ⟨hmem2, hlen2, hnodup2, _, hperm2⟩ :=
    remove4_spec2 indX hxmem indY hyb (Ne.symm hyne)
  rcases hrem : removeFirst indY (removeFirst indX [0, 1, 2, 3]) with
    _ | ⟨p, _ | ⟨q, _ | _⟩⟩ <;> rw [hrem] at h hlen2
  · simp at hlen2
  · simp at hlen2
  · simp only [Option.bind_eq_bind, Option.bind_eq_some,
      Option.some.injEq] at h
    obtain ⟨cyp, _, cyq, _, h⟩ := h
    have hpmem : p ∈ removeFirst indY (removeFirst indX [0, 1, 2, 3]) := by
      rw [hrem]; simp
    have hqmem : q ∈ removeFirst indY (removeFirst indX [0, 1, 2, 3]) := by
      rw [hrem]; simp
    have hpq : p ≠ q := by
      rw [hrem] at hnodup2
      simp only [List.nodup_cons, List.mem_cons, List.not_mem_nil,
        or_false, List.nodup_nil, and_true] at hnodup2
      exact hnodup2.1
    have hlr2 : lr = (indY, indX) ∨ lr = (indX, indY) := by
      rw [rootLR] at hlr
      split_ifs at hlr <;> simp only [Option.some.injEq] at hlr <;>
        first
        | exact Or.inl hlr.symm
        | exact Or.inr hlr.symm
    have hswap := hperm2 p hpmem q hqmem hpq
    have hswap' := hperm2 q hqmem p hpmem (Ne.symm hpq)
    rcases hlr2 with rfl | rfl <;> split at h <;>
      simp only [Option.some.injEq] at h <;> subst h
    · exact hswap.2
    · exact hswap'.2
    · exact hswap.1
    · exact hswap'.1
  · simp at hlen2

/-- A successful `LE_Panel` classification names each role index
exactly once. -/
theorem classifyLEPanel_perm {cx0 cx1 cx2 cx3 cy0 cy1 cy2 cy3 : ℚ}
    {r : LTRB Nat}
    (h : classifyLEPanel cx0 cx1 cx2 cx3 cy0 cy1 cy2 cy3 = some r) :
    [r.left, r.top, r.right, r.bottom].Perm [0, 1, 2, 3] := by
  simp only [classifyLEPanel, Option.bind_eq_bind, Option.bind_eq_some,
    Option.pure_def] at h
  obtain ⟨xMin, _, yMax, _, yMin, _, l1, hl1, l2, hl2, l3, hl3, h⟩ := h
  obtain ⟨hxmem, rfl⟩ := pyRemove_some hl1
  obtain ⟨hymem, rfl⟩ := pyRemove_some hl2
  obtain ⟨hzmem, rfl⟩ := pyRemove_some hl3
  obtain ⟨hyb, hyne⟩ := mem_of_removeFirst4 xMin hxmem yMax hymem
  obtain ⟨hmem2, _, _, _, _⟩ :=
    remove4_spec2 xMin hxmem yMax hyb (Ne.symm hyne)
  obtain ⟨hz4, hzne1, hzne2⟩ := hmem2 yMin hzmem
  obtain ⟨hperm3, hlen3⟩ :=
    remove4_spec3 xMin hxmem yMax hyb yMin (mem_range4 hz4)
      (Ne.symm hyne) hzne1 hzne2
  rcases hrem : removeFirst yMin
      (removeFirst yMax (removeFirst xMin [0, 1, 2, 3])) with
    _ | ⟨rr, _ | _⟩ <;> rw [hrem] at h hlen3
  · simp at hlen3
  · simp only [Option.some.injEq] at h
    subst h
    exact (hperm3 rr (by rw [hrem]; simp)).1
  · simp at hlen3

/-- A successful main `TE_Reinforcement` (`uniax`/`foam`) classification
names each role index exactly once. -/
theorem classifyTEMain_perm {cx0 cx1 cx2 cx3 cy0 cy1 cy2 cy3 : ℚ}
    {r : LTRB Nat}
    (h : classifyTEMain cx0 cx1 cx2 cx3 cy0 cy1 cy2 cy3 = some r) :
    [r.left, r.top, r.right, r.bottom].Perm [0, 1, 2, 3] := by
  simp only [classifyTEMain, Option.bind_eq_bind, Option.bind_eq_some,
    Option.pure_def] at h
  obtain ⟨xMax, _, yMax, _, yMin, _, l1, hl1, l2, hl2, l3, hl3, h⟩ := h
  obtain ⟨hxmem, rfl⟩ := pyRemove_some hl1
  obtain ⟨hymem, rfl⟩ := pyRemove_some hl2
  obtain ⟨hzmem, rfl⟩ := pyRemove_some hl3
  obtain ⟨hyb, hyne⟩ := mem_of_removeFirst4 xMax hxmem yMax hymem
  obtain ⟨hmem2, _, _, _, _⟩ :=
    remove4_spec2 xMax hxmem yMax hyb (Ne.symm hyne)
  obtain ⟨hz4, hzne1, hzne2⟩ := hmem2 yMin hzmem
  obtain ⟨hperm3, hlen3⟩ :=
    remove4_spec3 xMax hxmem yMax hyb yMin (mem_range4 hz4)
      (Ne.symm hyne) hzne1 hzne2
  rcases hrem : removeFirst yMin
      (removeFirst yMax (removeFirst xMax [0, 1, 2, 3])) with
    _ | ⟨rr, _ | _⟩ <;> rw [hrem] at h hlen3
  · simp at hlen3
  · simp only [Option.some.injEq] at h
    subst h
    exact (hperm3 rr (by rw [hrem]; simp)).2
  · simp at hlen3

/-- C4: whenever the role classification of `get_and_save_edges`
succeeds on a quadrilateral layer, the four roles
left/top/right/bottom are exactly the four edge indices: a permutation
of `[0, 1, 2, 3]`, no role repeated and no edge unassigned. -/
theorem claim_C4 :
    ∀ (fam : Family) (name : String) (cx0 cx1 cx2 cx3 cy0 cy1 cy2 cy3 : ℚ)
      (r : LTRB Nat),
      classifyQuad fam name cx0 cx1 cx2 cx3 cy0 cy1 cy2 cy3 = some r →
      [r.left, r.top, r.right, r.bottom].Perm [0, 1, 2, 3] := by
  intro fam name cx0 cx1 cx2 cx3 cy0 cy1 cy2 cy3 r h
  cases fam with
  | rootBuildup => exact classifyRootBuildup_perm h
  | lePanel => exact classifyLEPanel_perm h
  | sparCap => exact classifyGeneric_perm h
  | aftPanel => exact classifyGeneric_perm h
  | shearWeb => exact classifyGeneric_perm h
  | teReinf =>
      simp only [classifyQuad] at h
      split_ifs at h
      · exact classifyTEMain_perm h
      · exact classifyGeneric_perm h
  | extSurface => simp [classifyQuad] at h

/-- C4 (witness): the theorem applied to a concrete spar-cap
classification. -/
theorem claim_C4_witness :
    classifyQuad Family.sparCap "lower spar cap" 0 5 9 6 2 1 3 7 =
      some { left := 0, top := 3, right := 2, bottom := 1 } ∧
    ([0, 3, 2, 1] : List Nat).Perm [0, 1, 2, 3] := by
  have h : classifyQuad Family.sparCap "lower spar cap" 0 5 9 6 2 1 3 7 =
      some { left := 0, top := 3, right := 2, bottom := 1 } := by
    norm_num [classifyQuad, classifyGeneric, firstIdxEq, firstIdxWhere,
      min4, max4, pyRemove, removeFirst]
  exact ⟨h, claim_C4 Family.sparCap "lower spar cap" 0 5 9 6 2 1 3 7
    { left := 0, top := 3, right := 2, bottom := 1 } h⟩

/-! Translation invariance infrastructure for C8. -/

/-- An x-coordinate match is unaffected by a vertical translation. -/
theorem idxMatches_translate (v off : ℚ) (a : List Pt) :
    idxMatches (fun pt => pt.1 = v) (a.map (translatePt off)) =
      idxMatches (fun pt => pt.1 = v) a := by
  unfold idxMatches
  rw [List.length_map]
  apply List.filter_congr
  intro i _
  rw [List.getElem?_map]
  cases a[i]? with
  | none => rfl
  | some pt => rfl

/-- For the part families whose corner matching uses only
x-coordinates, the sorted match-index array is invariant under vertical
translation of the ring. -/
theorem matchIndices_translate (fam : Family) (hfam : famYTargets fam = [])
    (xT : List ℚ) (off : ℚ) (a : List Pt) :
    matchIndices fam xT (a.map (translatePt off)) = matchIndices fam xT a := by
  have hx : ∀ v : ℚ,
      idxMatches (fun pt => pt.1 = v) (a.map (translatePt off)) =
        idxMatches (fun pt => pt.1 = v) a :=
    fun v => idxMatches_translate v off a
  simp [matchIndices, hfam, hx]

/-- Slicing commutes with pointwise translation. -/
theorem sliceIncl_map (f : Pt → Pt) (a : List Pt) (i j : Nat) :
    sliceIncl (a.map f) i j = (sliceIncl a i j).map f := by
  simp [sliceIncl, List.map_take, List.map_drop]

/-- `(Quad.map f q).nth i = f (q.nth i)`. -/
theorem Quad.nth_map {α β : Type} (f : α → β) (q : Quad α) (i : Nat) :
    (Quad.map f q).nth i = f (q.nth i) := by
  rcases i with _ | _ | _ | n <;> rfl

/-- For x-matching families, `get_edges` commutes with vertical
translation of the ring: the re-derived edges are exactly the old
edges, each point translated. -/
theorem getEdgesV1_translate (fam : Family) (hfam : famYTargets fam = [])
    (xT : List ℚ) (off : ℚ) (a : List Pt) :
    getEdgesV1 fam xT (a.map (translatePt off)) =
      (getEdgesV1 fam xT a).map (Quad.map (List.map (translatePt off))) := by
  unfold getEdgesV1
  rw [matchIndices_translate fam hfam]
  rcases matchIndices fam xT a with _ | ⟨m0, _ | ⟨m1, _ | ⟨m2, _ | ⟨m3, rest⟩⟩⟩⟩
  · rfl
  · rfl
  · rfl
  · rfl
  · rcases rest with _ | ⟨m4, rest'⟩ <;>
      simp [Quad.map, sliceIncl_map, List.map_drop, List.map_take,
        List.map_append, List.map_dropLast]

/-- The sorted match-index array is ascending. -/
theorem matchIndices_sorted (fam : Family) (xT : List ℚ) (a : List Pt) :
    (matchIndices fam xT a).Sorted (· ≤ ·) := by
  unfold matchIndices
  exact List.sorted_insertionSort _ _

/-- Every match index addresses a ring vertex. -/
theorem matchIndices_lt_length (fam : Family) (xT : List ℚ) (a : List Pt) :
    ∀ m ∈ matchIndices fam xT a, m < a.length := by
  intro m hm
  unfold matchIndices at hm
  rw [(List.perm_insertionSort _ _).mem_iff] at hm
  rw [List.mem_append] at hm
  have key : ∀ (p : Pt → Bool), m ∈ idxMatches p a → m < a.length := by
    intro p hp
    unfold idxMatches at hp
    have := (List.mem_filter.mp hp).1
    simpa using this
  rcases hm with hm | hm <;>
    rcases List.mem_flatMap.mp hm with ⟨v, _, hv⟩ <;>
    exact key _ hv

/-- An inclusive slice starting inside the list with an ordered index
pair is nonempty. -/
theorem sliceIncl_ne_nil {a : List Pt} {i j : Nat} (hi : i < a.length)
    (hij : i ≤ j) : sliceIncl a i j ≠ [] := by
  have hlen : (sliceIncl a i j).length = min (j + 1 - i) (a.length - i) := by
    simp [sliceIncl, List.length_take, List.length_drop]
  intro hnil
  rw [hnil] at hlen
  simp only [List.length_nil] at hlen
  omega

/-- All four edges produced by `get_edges` are nonempty point
sequences. -/
theorem getEdgesV1_ne_nil {fam : Family} {xT : List ℚ} {a : List Pt}
    {q : Quad (List Pt)} (h : getEdgesV1 fam xT a = some q) :
    q.e1 ≠ [] ∧ q.e2 ≠ [] ∧ q.e3 ≠ [] ∧ q.e4 ≠ [] := by
  have hs := matchIndices_sorted fam xT a
  have hb := matchIndices_lt_length fam xT a
  unfold getEdgesV1 at h
  rcases hm : matchIndices fam xT a with
    _ | ⟨m0, _ | ⟨m1, _ | ⟨m2, _ | ⟨m3, rest⟩⟩⟩⟩ <;> rw [hm] at h hs hb
  · simp at h
  · simp at h
  · simp at h
  · simp at h
  · simp only [Option.some.injEq] at h
    subst h
    obtain ⟨h0le, hs⟩ := List.sorted_cons.mp hs
    obtain ⟨h1le, hs⟩ := List.sorted_cons.mp hs
    obtain ⟨h2le, hs⟩ := List.sorted_cons.mp hs
    obtain ⟨h3le, _⟩ := List.sorted_cons.mp hs
    have hm0 : m0 < a.length := hb m0 (by simp)
    have hm1 : m1 < a.length := hb m1 (by simp)
    have hm2 : m2 < a.length := hb m2 (by simp)
    have hm3 : m3 < a.length := hb m3 (by simp)
    refine ⟨sliceIncl_ne_nil hm0 (h0le m1 (by simp)),
      sliceIncl_ne_nil hm1 (h1le m2 (by simp)),
      sliceIncl_ne_nil hm2 (h2le m3 (by simp)), ?_⟩
    rcases rest with _ | ⟨m4, rest'⟩
    · intro hcontra
      have hnil : a.drop m3 = [] := (List.append_eq_nil.mp hcontra).1
      have := List.drop_eq_nil_iff.mp hnil
      omega
    · exact sliceIncl_ne_nil hm3 (h3le m4 (by simp))

/-- The first index of a value is invariant under a uniform shift of
value and array. -/
theorem firstIdxEq_shift (v off : ℚ) :
    ∀ l : List ℚ,
      firstIdxEq (v + off) (l.map (· + off)) = firstIdxEq v l := by
  intro l
  unfold firstIdxEq
  induction l with
  | nil => rfl
  | cons x xs ih =>
      simp only [List.map_cons, firstIdxWhere]
      have hcond : (decide (x + off = v + off)) = (decide (x = v)) := by
        simp [add_left_inj]
      simp only [hcond, ih]

/-- `np.min` of a uniformly shifted 4-array. -/
theorem min4_shift (a b c d off : ℚ) :
    min4 (a + off) (b + off) (c + off) (d + off) = min4 a b c d + off := by
  unfold min4
  rw [min_add_add_right a b off, min_add_add_right (min a b) c off,
    min_add_add_right (min (min a b) c) d off]

/-- `np.max` of a uniformly shifted 4-array. -/
theorem max4_shift (a b c d off : ℚ) :
    max4 (a + off) (b + off) (c + off) (d + off) = max4 a b c d + off := by
  unfold max4
  rw [max_add_add_right a b off, max_add_add_right (max a b) c off,
    max_add_add_right (max (max a b) c) d off]

/-- The generic role rule is invariant under a uniform shift of all y
centroids. -/
theorem classifyGeneric_shift (cx0 cx1 cx2 cx3 cy0 cy1 cy2 cy3 off : ℚ) :
    classifyGeneric cx0 cx1 cx2 cx3 (cy0 + off) (cy1 + off) (cy2 + off)
        (cy3 + off) = classifyGeneric cx0 cx1 cx2 cx3 cy0 cy1 cy2 cy3 := by
  simp only [classifyGeneric]
  rcases hxi : firstIdxEq (min4 cx0 cx1 cx2 cx3) [cx0, cx1, cx2, cx3] with
    _ | xi
  · rfl
  rcases hxj : firstIdxEq (max4 cx0 cx1 cx2 cx3) [cx0, cx1, cx2, cx3] with
    _ | xj
  · rfl
  simp only [Option.bind_eq_bind, Option.some_bind]
  rcases hl1 : pyRemove [0, 1, 2, 3] xi with _ | l1
  · rfl
  simp only [Option.bind_eq_bind, Option.some_bind]
  rcases hl2 : pyRemove l1 xj with _ | l2
  · rfl
  simp only [Option.bind_eq_bind, Option.some_bind]
  rcases l2 with _ | ⟨p, _ | ⟨q, _ | _⟩⟩
  · rfl
  · rfl
  · have hys : ([cy0 + off, cy1 + off, cy2 + off, cy3 + off] : List ℚ) =
        [cy0, cy1, cy2, cy3].map (· + off) := rfl
    rw [hys]
    dsimp only
    rw [List.getElem?_map, List.getElem?_map]
    rcases [cy0, cy1, cy2, cy3][p]? with _ | cyp
    · rfl
    rcases [cy0, cy1, cy2, cy3][q]? with _ | cyq
    · simp
    simp [add_lt_add_iff_right]
  · rfl

/-- The `LE_Panel` role rule is invariant under a uniform shift of all
y centroids: the first-maximum-y and first-minimum-y indices do not
change. -/
theorem classifyLEPanel_shift (cx0 cx1 cx2 cx3 cy0 cy1 cy2 cy3 off : ℚ) :
    classifyLEPanel cx0 cx1 cx2 cx3 (cy0 + off) (cy1 + off) (cy2 + off)
        (cy3 + off) = classifyLEPanel cx0 cx1 cx2 cx3 cy0 cy1 cy2 cy3 := by
  simp only [classifyLEPanel]
  have hys : ([cy0 + off, cy1 + off, cy2 + off, cy3 + off] : List ℚ) =
      [cy0, cy1, cy2, cy3].map (· + off) := rfl
  rw [hys, max4_shift, min4_shift, firstIdxEq_shift, firstIdxEq_shift]

/-- The main `TE_Reinforcement` role rule is invariant under a uniform
shift of all y centroids. -/
theorem classifyTEMain_shift (cx0 cx1 cx2 cx3 cy0 cy1 cy2 cy3 off : ℚ) :
    classifyTEMain cx0 cx1 cx2 cx3 (cy0 + off) (cy1 + off) (cy2 + off)
        (cy3 + off) = classifyTEMain cx0 cx1 cx2 cx3 cy0 cy1 cy2 cy3 := by
  simp only [classifyTEMain]
  have hys : ([cy0 + off, cy1 + off, cy2 + off, cy3 + off] : List ℚ) =
      [cy0, cy1, cy2, cy3].map (· + off) := rfl
  rw [hys, max4_shift, min4_shift, firstIdxEq_shift, firstIdxEq_shift]

/-- For every family except root buildup and external surface, the
role classification is invariant under a uniform shift of all y
centroids. -/
theorem classifyQuad_shift (fam : Family)
    (hfam : fam ∈ [Family.lePanel, Family.sparCap, Family.aftPanel,
      Family.teReinf, Family.shearWeb])
    (name : String) (cx0 cx1 cx2 cx3 cy0 cy1 cy2 cy3 off : ℚ) :
    classifyQuad fam name cx0 cx1 cx2 cx3 (cy0 + off) (cy1 + off)
        (cy2 + off) (cy3 + off) =
      classifyQuad fam name cx0 cx1 cx2 cx3 cy0 cy1 cy2 cy3 := by
  simp only [List.mem_cons, List.not_mem_nil, or_false] at hfam
  rcases hfam with rfl | rfl | rfl | rfl | rfl
  · exact classifyLEPanel_shift cx0 cx1 cx2 cx3 cy0 cy1 cy2 cy3 off
  · exact classifyGeneric_shift cx0 cx1 cx2 cx3 cy0 cy1 cy2 cy3 off
  · exact classifyGeneric_shift cx0 cx1 cx2 cx3 cy0 cy1 cy2 cy3 off
  · simp only [classifyQuad]
    split_ifs
    · exact classifyTEMain_shift cx0 cx1 cx2 cx3 cy0 cy1 cy2 cy3 off
    · exact classifyGeneric_shift cx0 cx1 cx2 cx3 cy0 cy1 cy2 cy3 off
  · exact classifyGeneric_shift cx0 cx1 cx2 cx3 cy0 cy1 cy2 cy3 off

/-- For every family whose corner matching uses only x-coordinates,
`get_and_save_edges` commutes with vertical translation, given a
kernel centroid that is translation-equivariant on nonempty
point sequences. -/
theorem getAndSaveEdges_translate (fam : Family)
    (hfam : fam ∈ [Family.lePanel, Family.sparCap, Family.aftPanel,
      Family.teReinf, Family.shearWeb])
    (name : String) (centroid : List Pt → Pt) (xT : List ℚ) (off : ℚ)
    (a : List Pt)
    (hcent : ∀ e : List Pt, e ≠ [] →
      centroid (e.map (translatePt off)) = translatePt off (centroid e)) :
    getAndSaveEdges fam name centroid xT (a.map (translatePt off)) =
      (getAndSaveEdges fam name centroid xT a).map
        (LTRB.map (List.map (translatePt off))) := by
  have hy : famYTargets fam = [] := by
    simp only [List.mem_cons, List.not_mem_nil, or_false] at hfam
    rcases hfam with rfl | rfl | rfl | rfl | rfl <;> rfl
  simp only [getAndSaveEdges]
  rw [getEdgesV1_translate fam hy]
  rcases hq : getEdgesV1 fam xT a with _ | q
  · rfl
  obtain ⟨h1, h2, h3, h4⟩ := getEdgesV1_ne_nil hq
  simp only [Option.map_some', Option.bind_eq_bind, Option.some_bind,
    Quad.map]
  rw [hcent q.e1 h1, hcent q.e2 h2, hcent q.e3 h3, hcent q.e4 h4]
  have hxeq : ∀ e : List Pt, (translatePt off (centroid e)).1 =
      (centroid e).1 := fun _ => rfl
  have hyeq : ∀ e : List Pt, (translatePt off (centroid e)).2 =
      (centroid e).2 + off := fun _ => rfl
  rw [hxeq, hxeq, hxeq, hxeq, hyeq, hyeq, hyeq, hyeq]
  rw [classifyQuad_shift fam hfam name (centroid q.e1).1 (centroid q.e2).1
    (centroid q.e3).1 (centroid q.e4).1 (centroid q.e1).2 (centroid q.e2).2
    (centroid q.e3).2 (centroid q.e4).2 off]
  rcases hr : classifyQuad fam name (centroid q.e1).1 (centroid q.e2).1
      (centroid q.e3).1 (centroid q.e4).1 (centroid q.e1).2
      (centroid q.e2).2 (centroid q.e3).2 (centroid q.e4).2 with _ | r
  · rfl
  simp only [Option.bind_eq_bind, Option.some_bind, Option.map_some',
    Option.pure_def, Option.some.injEq, LTRB.map, LTRB.mk.injEq]
  refine ⟨Quad.nth_map _ q r.left, Quad.nth_map _ q r.top,
    Quad.nth_map _ q r.right, Quad.nth_map _ q r.bottom⟩

/-- C8 (counterexample): moving a root-buildup layer vertically and
re-deriving its edges does not reproduce the previously computed edges
shifted — the root-buildup corner matching selects vertices with
`y == 0.0`, which no longer exist after the translation, so the
re-derivation fails while the original derivation succeeds. -/
theorem claim_C8_counterexample :
    ¬ ((moveLayer Family.rootBuildup centroidAvg [] rbLayer 1 false).ltrb =
       (getAndSaveEdges Family.rootBuildup rbLayer.name centroidAvg []
          rbLayer.polygonExt).map (LTRB.map (List.map (translatePt 1)))) := by
  have hL : (moveLayer Family.rootBuildup centroidAvg [] rbLayer 1
      false).ltrb = none := by
    have hmatch : matchIndices Family.rootBuildup []
        (rbRing.map (translatePt 1)) = [0, 5, 6] := by
      norm_num [matchIndices, famXTargets, famYTargets, idxMatches, rbRing,
        translatePt, List.range, List.range.loop, List.filter,
        List.insertionSort, List.orderedInsert, Prod.mk.injEq, Prod.ext_iff,
        List.flatMap]
    simp only [moveLayer, rbLayer, if_neg Bool.false_ne_true,
      Bool.false_eq_true, if_false]
    simp only [getAndSaveEdges, getEdgesV1, hmatch]
    rfl
  have hR : (getAndSaveEdges Family.rootBuildup rbLayer.name centroidAvg []
      rbLayer.polygonExt).isSome = true := by
    have : getAndSaveEdges Family.rootBuildup "triax, upper left"
        centroidAvg [] rbRing =
        some { left := [(-2, 0), (-1, 0)],
               top := [(0, 2), (-3/2, 3/2), (-2, 0)],
               right := [(0, 1), (0, 2)],
               bottom := [(-1, 0), (-7/10, 7/10), (0, 1)] } := by
      norm_num [getAndSaveEdges, rbRing, getEdgesV1, matchIndices,
        famXTargets, famYTargets, idxMatches, List.range, List.range.loop,
        List.filter, List.insertionSort, List.orderedInsert, sliceIncl,
        centroidAvg, classifyQuad, classifyRootBuildup, rootLR, firstIdxEq,
        firstIdxWhere, pyRemove, removeFirst, max4, min4, Quad.nth, LTRB.map,
        Prod.mk.injEq, List.flatMap]
      simp only [List.cons_ne_nil, if_false, ite_false, reduceCtorEq,
        if_neg, Option.map_some]
      norm_num [removeFirst, Quad.nth, LTRB.map, List.mem_cons]
      simp
    rw [show rbLayer.name = "triax, upper left" from rfl,
      show rbLayer.polygonExt = rbRing from rfl, this]
    rfl
  intro hcontra
  rw [hL] at hcontra
  rcases hopt : getAndSaveEdges Family.rootBuildup rbLayer.name centroidAvg
      [] rbLayer.polygonExt with _ | v
  · rw [hopt] at hR
    simp [Option.isSome] at hR
  · rw [hopt] at hcontra
    simp at hcontra

/-- C8 (amended): for layers of the LE panel, spar cap, aft panel, TE
reinforcement and shear web families — whose corner matching depends
only on x-coordinates — `move(Δ)` re-derives exactly the previously
computed edges with every y-coordinate shifted by `Δ` and every
x-coordinate unchanged, for any kernel centroid that is
translation-equivariant on nonempty point sequences; the invariance
fails for root buildup (and external surface), whose corner matching
tests `y == 0.0` in the translated frame. -/
theorem claim_C8 :
    ∀ (fam : Family),
      fam ∈ [Family.lePanel, Family.sparCap, Family.aftPanel,
        Family.teReinf, Family.shearWeb] →
    ∀ (centroid : List Pt → Pt) (xT : List ℚ) (s : LayerState) (off : ℚ),
      (∀ e : List Pt, e ≠ [] →
        centroid (e.map (translatePt off)) = translatePt off (centroid e)) →
      (moveLayer fam centroid xT s off false).ltrb =
        (getAndSaveEdges fam s.name centroid xT s.polygonExt).map
          (LTRB.map (List.map (translatePt off))) := by
  intro fam hfam centroid xT s off hcent
  simp only [moveLayer, Bool.false_eq_true, if_false]
  exact getAndSaveEdges_translate fam hfam s.name centroid xT off
    s.polygonExt hcent

/-- The averaging centroid is translation-equivariant on nonempty
point sequences. -/
theorem centroidAvg_equivariant (off : ℚ) (e : List Pt) (he : e ≠ []) :
    centroidAvg (e.map (translatePt off)) =
      translatePt off (centroidAvg e) := by
  have hlen : (e.length : ℚ) ≠ 0 := by
    simpa using fun hh => he (List.length_eq_zero.mp hh)
  unfold centroidAvg translatePt
  simp only [List.map_map, List.length_map]
  have hx : e.map (Prod.fst ∘ fun p : Pt => (p.1, p.2 + off)) =
      e.map Prod.fst :=
    List.map_congr_left (fun p _ => rfl)
  have hy : e.map (Prod.snd ∘ fun p : Pt => (p.1, p.2 + off)) =
      e.map (fun p : Pt => p.2 + off) :=
    List.map_congr_left (fun p _ => rfl)
  have hsum : ∀ (l : List ℚ),
      (l.map (fun x => x + off)).sum = l.sum + l.length * off := by
    intro l
    induction l with
    | nil => simp
    | cons x xs ih =>
        simp only [List.map_cons, List.sum_cons, ih, List.length_cons]
        push_cast
        ring
  have hy2 : (e.map (fun p : Pt => p.2 + off)).sum =
      (e.map Prod.snd).sum + e.length * off := by
    have h := hsum (e.map Prod.snd)
    rw [List.map_map, List.length_map] at h
    exact h
  rw [hx, hy, hy2]
  refine Prod.ext rfl ?_
  field_simp
  ring

/-- C8 (witness): the amended theorem applied to the sample spar-cap
layer with the averaging centroid and offset 1. -/
theorem claim_C8_witness :
    (∀ e : List Pt, e ≠ [] →
      centroidAvg (e.map (translatePt 1)) =
        translatePt 1 (centroidAvg e)) ∧
    (moveLayer Family.sparCap centroidAvg [-1, 1] scLayer 1 false).ltrb =
      (getAndSaveEdges Family.sparCap scLayer.name centroidAvg [-1, 1]
        scLayer.polygonExt).map (LTRB.map (List.map (translatePt 1))) :=
  ⟨fun e he => centroidAvg_equivariant 1 e he,
    claim_C8 Family.sparCap (by simp) centroidAvg [-1, 1] scLayer 1
      (fun e he => centroidAvg_equivariant 1 e he)⟩

end Biplaneblade
